import Mathlib

/-!
Shallow embedding of the Shamir secret-sharing core of this repository:
the class `ShamirSecretSharing` of `src/crypto/shamir.py` together with the
parameter / secret validators of `src/crypto/security.py`.

Conventions of the embedding:
* Python `int` values are `Nat` (or `Int` where Python subtraction may go
  negative; Python `%` on a positive modulus matches `Int.emod`).
* Python `bytes` are `List Nat` with every element `< 256`.
* Python `str` share strings are `List Char`; the secret string is modelled
  by its UTF-8 byte list (`secret.encode("utf-8")`), so split and combine
  are stated at the byte level; the check for a NUL character corresponds
  exactly to the byte 0 occurring in the UTF-8 encoding.
* `raise ValueError(msg)` is `Except.error msg`; values returned normally
  are wrapped in `Except.ok`.
* Calls to `secure_random_int(1, 255)` consume successive values of an
  ambient stream `rng : Nat → Nat`; theorems that need the codomain
  restriction take the hypothesis `∀ t, 1 ≤ rng t ∧ rng t ≤ 255`.
* `while`-loops on an integer that strictly decreases are written with a
  fuel argument initialised so that the fuel never runs out (the loop on
  `b` in `_gf_mult_basic` runs at most `log2 b + 1 ≤ b` times, and the
  digit loops of the Base62 codec run `log62 num + 1 ≤ num` and
  `log256 num + 1 ≤ num` times).
-/

set_option maxRecDepth 16000

namespace Shamir

/-- `_POLYNOMIAL`: irreducible polynomial for GF(256). -/
def POLYNOMIAL : Nat := 0x11b

/-- `_BASE62_ALPHABET` as a list of characters. -/
def BASE62_ALPHABET : List Char :=
  "0123456789ABCDEFGHIJKLMNOPQRSTUVWXYZabcdefghijklmnopqrstuvwxyz".data

/-- The update of `a` inside the `while` loop of `_gf_mult_basic`:
`a <<= 1` followed by `if a & 0x100: a ^= self._POLYNOMIAL`. -/
def xtime (a : Nat) : Nat :=
  if (2 * a) &&& 0x100 ≠ 0 then (2 * a) ^^^ POLYNOMIAL else 2 * a

/-- The `while b:` loop of `_gf_mult_basic`, with fuel.  Each iteration
xors `a` into the running result when the low bit of `b` is set, doubles
`a` reducing by `POLYNOMIAL` on overflow of bit 8 (`xtime`), and halves
`b`.  The loop runs `⌈log2 b⌉ ≤ b` times, so fuel `b` never runs out. -/
def gfMultAux : Nat → Nat → Nat → Nat
  | 0, _, _ => 0
  | fuel+1, a, b =>
    if b = 0 then 0
    else (if b % 2 = 1 then a else 0) ^^^ gfMultAux fuel (xtime a) (b / 2)

/-- The exact value of the loop of `_gf_mult_basic` before the final
`& 0xff` mask (a proof-side name for the loop). -/
def bmul (a b : Nat) : Nat := gfMultAux b a b

/-- `_gf_mult_basic(a, b)`: loop then `return result & 0xff`. -/
def gf_mult_basic (a b : Nat) : Nat := gfMultAux b a b &&& 0xff

/-- The table-building loop of `_build_tables`: starting from `x`, lists
`n` successive powers `x, 3x, 9x, …` under `_gf_mult_basic · 3`. -/
def expListFrom : Nat → Nat → List Nat
  | 0, _ => []
  | n+1, x => x :: expListFrom n (gf_mult_basic x 3)

/-- `_exp_table`: `exp[i] = 3^i` for `i < 255`, and `exp[255] = exp[0]`. -/
def exp_table : List Nat :=
  let l := expListFrom 255 1
  l ++ [l.getD 0 0]

/-- `_log_table`: starts all zero, then `log[exp[i]] = i` for `i < 255`. -/
def log_table : List Nat :=
  (List.range 255).foldl (fun t i => t.set (exp_table.getD i 0) i) (List.replicate 256 0)

/-- Iterated `_gf_mult_basic · 3`: the successive values taken by `x` in
the table-building loop, so that `exp[i] = pow3 i` (proof-side name). -/
def pow3 : Nat → Nat
  | 0 => 1
  | n+1 => gf_mult_basic (pow3 n) 3

/-- `_gf_mult(a, b)` (table based). -/
def gf_mult (a b : Nat) : Nat :=
  if a = 0 ∨ b = 0 then 0
  else exp_table.getD ((log_table.getD a 0 + log_table.getD b 0) % 255) 0

/-- `_gf_div(a, b)`.  Python `(log[a] - log[b]) % 255` normalises the
remainder to be non-negative, which is `Int.emod`. -/
def gf_div (a b : Nat) : Except String Nat :=
  if a = 0 then .ok 0
  else if b = 0 then .error "Division by zero in GF(256)"
  else .ok (exp_table.getD
    (((log_table.getD a 0 : Int) - (log_table.getD b 0 : Int)) % 255).toNat 0)

/-- Multiplicative inverse read off the tables (`gf_div 1 b` unfolded);
used to relate `gf_div` to field division. -/
def gfInv (b : Nat) : Nat :=
  if b = 0 then 0
  else exp_table.getD ((255 - log_table.getD b 0) % 255) 0

/-! ### Literal copies of the two tables

`expTab` and `logTab` list the values of `exp_table` and `log_table`
explicitly; the equations `exp_table_eq` / `log_table_eq` are checked by
evaluation.  All finite case checks below run over the literals, which
keeps kernel reduction cheap. -/

def expTab : List Nat :=
  [1, 3, 5, 15, 17, 51, 85, 255, 26, 46, 114, 150, 161, 248, 19, 53, 95, 225, 56, 72, 216, 115,
  149, 164, 247, 2, 6, 10, 30, 34, 102, 170, 229, 52, 92, 228, 55, 89, 235, 38, 106, 190, 217,
  112, 144, 171, 230, 49, 83, 245, 4, 12, 20, 60, 68, 204, 79, 209, 104, 184, 211, 110, 178,
  205, 76, 212, 103, 169, 224, 59, 77, 215, 98, 166, 241, 8, 24, 40, 120, 136, 131, 158, 185,
  208, 107, 189, 220, 127, 129, 152, 179, 206, 73, 219, 118, 154, 181, 196, 87, 249, 16, 48, 80,
  240, 11, 29, 39, 105, 187, 214, 97, 163, 254, 25, 43, 125, 135, 146, 173, 236, 47, 113, 147,
  174, 233, 32, 96, 160, 251, 22, 58, 78, 210, 109, 183, 194, 93, 231, 50, 86, 250, 21, 63, 65,
  195, 94, 226, 61, 71, 201, 64, 192, 91, 237, 44, 116, 156, 191, 218, 117, 159, 186, 213, 100,
  172, 239, 42, 126, 130, 157, 188, 223, 122, 142, 137, 128, 155, 182, 193, 88, 232, 35, 101,
  175, 234, 37, 111, 177, 200, 67, 197, 84, 252, 31, 33, 99, 165, 244, 7, 9, 27, 45, 119, 153,
  176, 203, 70, 202, 69, 207, 74, 222, 121, 139, 134, 145, 168, 227, 62, 66, 198, 81, 243, 14,
  18, 54, 90, 238, 41, 123, 141, 140, 143, 138, 133, 148, 167, 242, 13, 23, 57, 75, 221, 124,
  132, 151, 162, 253, 28, 36, 108, 180, 199, 82, 246, 1]

def logTab : List Nat :=
  [0, 0, 25, 1, 50, 2, 26, 198, 75, 199, 27, 104, 51, 238, 223, 3, 100, 4, 224, 14, 52, 141,
  129, 239, 76, 113, 8, 200, 248, 105, 28, 193, 125, 194, 29, 181, 249, 185, 39, 106, 77, 228,
  166, 114, 154, 201, 9, 120, 101, 47, 138, 5, 33, 15, 225, 36, 18, 240, 130, 69, 53, 147, 218,
  142, 150, 143, 219, 189, 54, 208, 206, 148, 19, 92, 210, 241, 64, 70, 131, 56, 102, 221, 253,
  48, 191, 6, 139, 98, 179, 37, 226, 152, 34, 136, 145, 16, 126, 110, 72, 195, 163, 182, 30, 66,
  58, 107, 40, 84, 250, 133, 61, 186, 43, 121, 10, 21, 155, 159, 94, 202, 78, 212, 172, 229,
  243, 115, 167, 87, 175, 88, 168, 80, 244, 234, 214, 116, 79, 174, 233, 213, 231, 230, 173,
  232, 44, 215, 117, 122, 235, 22, 11, 245, 89, 203, 95, 176, 156, 169, 81, 160, 127, 12, 246,
  111, 23, 196, 73, 236, 216, 67, 31, 45, 164, 118, 123, 183, 204, 187, 62, 90, 251, 96, 177,
  134, 59, 82, 161, 108, 170, 85, 41, 157, 151, 178, 135, 144, 97, 190, 220, 252, 188, 149, 207,
  205, 55, 63, 91, 209, 83, 57, 132, 60, 65, 162, 109, 71, 20, 42, 158, 93, 86, 242, 211, 171,
  68, 17, 146, 217, 35, 32, 46, 137, 180, 124, 184, 38, 119, 153, 227, 165, 103, 74, 237, 222,
  197, 49, 254, 24, 13, 99, 140, 128, 192, 247, 112, 7]

theorem exp_table_eq : exp_table = expTab := by decide

theorem log_table_eq : log_table = logTab := by decide

theorem expTab_length : expTab.length = 256 := by decide

theorem logTab_length : logTab.length = 256 := by decide

/-- Every entry of the logarithm table is below 255. -/
theorem logTab_lt : ∀ a < 256, logTab.getD a 0 < 255 := by decide

/-- `log` is a left inverse of `exp` on exponents below 255. -/
theorem log_exp_id : ∀ i < 255, logTab.getD (expTab.getD i 0) 0 = i := by decide

/-- `exp` is a left inverse of `log` on non-zero bytes. -/
theorem exp_log_id : ∀ a < 256, 1 ≤ a → expTab.getD (logTab.getD a 0) 0 = a := by decide

/-! ### Bit-level facts about `xtime` and the multiplication loop -/

theorem and_255_eq (x : Nat) : x &&& 255 = x % 256 := by
  have h := Nat.and_pow_two_sub_one_eq_mod x 8
  norm_num at h
  exact h

theorem two_mul_xor (u v : Nat) : 2 * (u ^^^ v) = 2 * u ^^^ 2 * v := by
  apply Nat.eq_of_testBit_eq
  intro i
  cases i with
  | zero => simp [Nat.testBit_xor, Nat.mul_comm 2, Nat.testBit_zero, Nat.mul_mod_left]
  | succ n =>
    simp [Nat.testBit_xor, Nat.testBit_succ, Nat.mul_comm 2, Nat.mul_div_cancel,
      Nat.xor_div_two]

theorem xor_left_comm (a b c : Nat) : a ^^^ (b ^^^ c) = b ^^^ (a ^^^ c) := by
  rw [← Nat.xor_assoc, Nat.xor_comm a b, Nat.xor_assoc]

theorem and_two_pow_8 (x : Nat) : x &&& 256 = (x.testBit 8).toNat * 256 := by
  have h := Nat.and_two_pow x 8
  norm_num at h
  exact h

theorem and_256_cases (x : Nat) : x &&& 256 = 0 ∨ x &&& 256 = 256 := by
  rw [and_two_pow_8]
  cases x.testBit 8 <;> simp

theorem testBit8_of_and (x : Nat) (h : x &&& 256 ≠ 0) : x / 256 % 2 = 1 := by
  rw [and_two_pow_8] at h
  rcases hb : x.testBit 8 with _ | _
  · rw [hb] at h; simp at h
  · have := Nat.testBit_to_div_mod (x := x) (i := 8)
    rw [hb] at this
    norm_num at this
    omega

theorem testBit8_of_not_and (x : Nat) (h : x &&& 256 = 0) : x / 256 % 2 = 0 := by
  rw [and_two_pow_8] at h
  rcases hb : x.testBit 8 with _ | _
  · have := Nat.testBit_to_div_mod (x := x) (i := 8)
    rw [hb] at this
    norm_num at this
    omega
  · rw [hb] at h; simp at h

theorem two_pow8_xor_eq_add {m : Nat} (h : m < 256) : 256 ^^^ m = 256 + m := by
  apply Nat.eq_of_testBit_eq
  intro i
  rcases Nat.lt_trichotomy i 8 with hi | hi | hi
  · have h1 : Nat.testBit 256 i = false := by
      have : (256 : Nat) = 2 ^ 8 := by norm_num
      rw [this, Nat.testBit_two_pow_of_ne (by omega)]
    have h2 : (256 + m).testBit i = m.testBit i := by
      have : (256 : Nat) = 2 ^ 8 := by norm_num
      rw [this, Nat.testBit_two_pow_add_gt hi]
    simp [Nat.testBit_xor, h1, h2]
  · subst hi
    have h1 : Nat.testBit 256 8 = true := by decide
    have h2 : (256 + m).testBit 8 = !(m.testBit 8) := by
      have : (256 : Nat) = 2 ^ 8 := by norm_num
      rw [this, Nat.testBit_two_pow_add_eq]
    have h3 : m.testBit 8 = false := Nat.testBit_lt_two_pow (by norm_num at *; omega)
    simp [Nat.testBit_xor, h1, h2, h3]
  · have h1 : Nat.testBit 256 i = false := Nat.testBit_lt_two_pow (by
      calc (256 : Nat) < 2 ^ 9 := by norm_num
      _ ≤ 2 ^ i := Nat.pow_le_pow_right (by norm_num) (by omega))
    have h2 : (256 + m).testBit i = false := Nat.testBit_lt_two_pow (by
      calc 256 + m < 2 ^ 9 := by omega
      _ ≤ 2 ^ i := Nat.pow_le_pow_right (by norm_num) (by omega))
    have h3 : m.testBit i = false := Nat.testBit_lt_two_pow (by
      calc m < 2 ^ 9 := by omega
      _ ≤ 2 ^ i := Nat.pow_le_pow_right (by norm_num) (by omega))
    simp [Nat.testBit_xor, h1, h2, h3]

theorem xor_256_of_bit8 {x : Nat} (hlt : x < 512) (h : 256 ≤ x) : x ^^^ 256 = x - 256 := by
  have hm : x - 256 < 256 := by omega
  have hx : x = 256 + (x - 256) := by omega
  have key : (256 + (x - 256)) ^^^ 256 = x - 256 := by
    rw [← two_pow8_xor_eq_add hm, Nat.xor_comm 256 (x - 256), Nat.xor_assoc,
      Nat.xor_self, Nat.xor_zero]
  rw [← hx] at key
  exact key

theorem xtime_lt {a : Nat} (h : a < 256) : xtime a < 256 := by
  unfold xtime
  split
  · next hc =>
      have h8 : 2 * a / 256 % 2 = 1 := testBit8_of_and _ hc
      have h256 : 256 ≤ 2 * a := by
        by_contra hlt
        push_neg at hlt
        have : 2 * a / 256 = 0 := Nat.div_eq_of_lt hlt
        omega
      have h512 : 2 * a < 512 := by omega
      have hsplit : (283 : Nat) = 256 ^^^ 27 := by decide
      rw [show (POLYNOMIAL : Nat) = 283 from rfl, hsplit, ← Nat.xor_assoc]
      have h1 : 2 * a ^^^ 256 = 2 * a - 256 := xor_256_of_bit8 h512 h256
      rw [h1]
      have h4 : 2 * a - 256 < 2 ^ 8 := by norm_num; omega
      have h5 : (27 : Nat) < 2 ^ 8 := by norm_num
      have h6 := Nat.xor_lt_two_pow h4 h5
      norm_num at h6
      exact h6
  · next hc =>
      push_neg at hc
      have h8 : 2 * a / 256 % 2 = 0 := testBit8_of_not_and _ hc
      by_contra hge
      push_neg at hge
      have : 2 * a / 256 = 1 := by omega
      omega

theorem xor_cancel_left (a b : Nat) : a ^^^ (a ^^^ b) = b := by
  rw [← Nat.xor_assoc, Nat.xor_self, Nat.zero_xor]

theorem xtime_xor (u v : Nat) : xtime (u ^^^ v) = xtime u ^^^ xtime v := by
  unfold xtime
  rw [two_mul_xor, Nat.and_xor_distrib_right]
  rcases and_256_cases (2 * u) with hu | hu <;> rcases and_256_cases (2 * v) with hv | hv <;>
    simp [hu, hv, Nat.xor_assoc, Nat.xor_comm, xor_left_comm, Nat.xor_self,
      Nat.xor_zero, Nat.zero_xor, xor_cancel_left]

theorem xtime_zero_eq : xtime 0 = 0 := by decide

theorem gfMultAux_b_zero (f a : Nat) : gfMultAux f a 0 = 0 := by
  cases f <;> simp [gfMultAux]

theorem gfMultAux_congr :
    ∀ b f g a, b ≤ f → b ≤ g → gfMultAux f a b = gfMultAux g a b := by
  intro b
  induction b using Nat.strong_induction_on with
  | _ b ihb =>
    intro f g a hf hg
    rcases Nat.eq_zero_or_pos b with hb | hb
    · subst hb
      rw [gfMultAux_b_zero, gfMultAux_b_zero]
    · obtain ⟨x, rfl⟩ : ∃ x, f = x + 1 := ⟨f - 1, by omega⟩
      obtain ⟨y, rfl⟩ : ∃ y, g = y + 1 := ⟨g - 1, by omega⟩
      have hb0 : ¬(b = 0) := by omega
      simp only [gfMultAux]
      rw [if_neg hb0, if_neg hb0]
      congr 1
      exact ihb (b / 2) (by omega) x y (xtime a) (by omega) (by omega)

theorem bmul_zero_right (a : Nat) : bmul a 0 = 0 := rfl

theorem bmul_step {b : Nat} (a : Nat) (hb : b ≠ 0) :
    bmul a b = (if b % 2 = 1 then a else 0) ^^^ bmul (xtime a) (b / 2) := by
  unfold bmul
  obtain ⟨m, rfl⟩ : ∃ m, b = m + 1 := ⟨b - 1, by omega⟩
  have hb0 : ¬(m + 1 = 0) := by omega
  simp only [gfMultAux]
  rw [if_neg hb0]
  congr 1
  exact gfMultAux_congr ((m + 1) / 2) m ((m + 1) / 2) (xtime a) (by omega) (by omega)

theorem bmul_zero_left : ∀ b, bmul 0 b = 0 := by
  intro b
  induction b using Nat.strong_induction_on with
  | _ b ih =>
    rcases Nat.eq_zero_or_pos b with hb | hb
    · subst hb; rfl
    · rw [bmul_step 0 (by omega), xtime_zero_eq, ih (b / 2) (by omega)]
      simp

theorem gfMultAux_lt : ∀ f a b, a < 256 → gfMultAux f a b < 256 := by
  intro f
  induction f with
  | zero => intro a b _; simp [gfMultAux]
  | succ n ih =>
    intro a b ha
    simp only [gfMultAux]
    split
    · omega
    · have h1 : (if b % 2 = 1 then a else 0) < 2 ^ 8 := by
        split <;> norm_num
        omega
      have h2 : gfMultAux n (xtime a) (b / 2) < 2 ^ 8 := by
        have := ih (xtime a) (b / 2) (xtime_lt ha)
        norm_num
        omega
      have := Nat.xor_lt_two_pow h1 h2
      norm_num at this
      exact this

theorem bmul_lt {a : Nat} (b : Nat) (h : a < 256) : bmul a b < 256 :=
  gfMultAux_lt b a b h

theorem gf_mult_basic_eq_bmul {a : Nat} (b : Nat) (h : a < 256) :
    gf_mult_basic a b = bmul a b := by
  show gfMultAux b a b &&& 0xff = bmul a b
  rw [show (0xff : Nat) = 255 from rfl, and_255_eq,
    Nat.mod_eq_of_lt (gfMultAux_lt b a b h)]
  rfl

theorem gf_mult_basic_lt (a b : Nat) : gf_mult_basic a b < 256 := by
  show gfMultAux b a b &&& 0xff < 256
  have := Nat.and_le_right (n := gfMultAux b a b) (m := 0xff)
  omega

theorem bmul_xor_right : ∀ a b c, bmul a (b ^^^ c) = bmul a b ^^^ bmul a c := by
  suffices H : ∀ n a b c, b + c ≤ n → bmul a (b ^^^ c) = bmul a b ^^^ bmul a c by
    intro a b c
    exact H (b + c) a b c le_rfl
  intro n
  induction n with
  | zero =>
    intro a b c h
    have hb : b = 0 := by omega
    have hc : c = 0 := by omega
    subst hb; subst hc
    simp [bmul_zero_right]
  | succ n ih =>
    intro a b c h
    rcases Nat.eq_zero_or_pos b with hb | hb
    · subst hb; simp [bmul_zero_right]
    · rcases Nat.eq_zero_or_pos c with hc | hc
      · subst hc; simp [bmul_zero_right]
      · by_cases hbc : b = c
        · subst hbc
          simp [Nat.xor_self, bmul_zero_right]
        · have hxor : b ^^^ c ≠ 0 := fun h0 => hbc (Nat.xor_eq_zero.mp h0)
          rw [bmul_step a hxor, bmul_step a (by omega), bmul_step a (by omega),
            Nat.xor_div_two, ih (xtime a) (b / 2) (c / 2) (by omega)]
          have hpar : (b ^^^ c) % 2 = b % 2 ^^^ c % 2 := by
            rw [← Nat.and_one_is_mod (b ^^^ c), ← Nat.and_one_is_mod b,
              ← Nat.and_one_is_mod c, Nat.and_xor_distrib_right]
          rcases Nat.mod_two_eq_zero_or_one b with h1 | h1 <;>
            rcases Nat.mod_two_eq_zero_or_one c with h2 | h2 <;>
            simp only [hpar, h1, h2, Nat.xor_self, Nat.xor_zero, Nat.zero_xor] <;>
            simp [Nat.xor_assoc, Nat.xor_comm, xor_left_comm, Nat.xor_self, Nat.xor_zero,
              xor_cancel_left]

theorem gfMultAux_xtime : ∀ f a b, gfMultAux f (xtime a) b = xtime (gfMultAux f a b) := by
  intro f
  induction f with
  | zero => intro a b; simp [gfMultAux, xtime_zero_eq]
  | succ n ih =>
    intro a b
    simp only [gfMultAux]
    split
    · rw [xtime_zero_eq]
    · rw [ih (xtime a) (b / 2), xtime_xor]
      congr 1
      split <;> simp [xtime_zero_eq]

theorem bmul_xtime_left (a b : Nat) : bmul (xtime a) b = xtime (bmul a b) :=
  gfMultAux_xtime b a b

theorem bmul_two (a b : Nat) : bmul a (2 * b) = bmul (xtime a) b := by
  rcases Nat.eq_zero_or_pos b with hb | hb
  · subst hb; simp [bmul_zero_right]
  · rw [bmul_step a (by omega)]
    have h1 : 2 * b % 2 = 0 := by omega
    have h2 : 2 * b / 2 = b := by omega
    rw [h1, h2]
    simp

theorem bmul_one (a : Nat) : bmul a 1 = a := by
  rw [bmul_step a one_ne_zero]
  simp [bmul_zero_right]

theorem bmul_poly : ∀ x < 256, bmul x POLYNOMIAL = 0 := by decide

theorem bmul_xtime_right {x : Nat} (hx : x < 256) (y : Nat) :
    bmul x (xtime y) = xtime (bmul x y) := by
  have hxy : xtime y = if (2 * y) &&& 0x100 ≠ 0 then 2 * y ^^^ POLYNOMIAL else 2 * y := rfl
  rw [hxy]
  split
  · rw [bmul_xor_right, bmul_two, bmul_poly x hx, Nat.xor_zero, bmul_xtime_left]
  · rw [bmul_two, bmul_xtime_left]

theorem bmul_three (y : Nat) : bmul y 3 = y ^^^ xtime y := by
  rw [bmul_step y (by norm_num)]
  norm_num
  rw [bmul_one]

theorem bmul_assoc3 {x : Nat} (hx : x < 256) (y : Nat) :
    bmul x (bmul y 3) = bmul (bmul x y) 3 := by
  rw [bmul_three y, bmul_three (bmul x y), bmul_xor_right, bmul_xtime_right hx]

theorem pow3_lt (n : Nat) : pow3 n < 256 := by
  cases n with
  | zero => norm_num [pow3]
  | succ n => exact gf_mult_basic_lt _ _

theorem pow3_succ_bmul (n : Nat) : pow3 (n + 1) = bmul (pow3 n) 3 :=
  gf_mult_basic_eq_bmul 3 (pow3_lt n)

theorem bmul_pow3 (i : Nat) : ∀ j, bmul (pow3 i) (pow3 j) = pow3 (i + j) := by
  intro j
  induction j with
  | zero => exact bmul_one (pow3 i)
  | succ j ih =>
    rw [pow3_succ_bmul j, bmul_assoc3 (pow3_lt i), ih, ← pow3_succ_bmul (i + j)]
    congr 1

theorem pow3_255 : pow3 255 = 1 := by decide

theorem pow3_add_255 (n : Nat) : pow3 (n + 255) = pow3 n := by
  rw [← bmul_pow3 n 255, pow3_255, bmul_one]

theorem pow3_mod (n : Nat) : pow3 (n % 255) = pow3 n := by
  induction n using Nat.strong_induction_on with
  | _ n ih =>
    by_cases h : n < 255
    · rw [Nat.mod_eq_of_lt h]
    · push_neg at h
      have h1 : n % 255 = (n - 255) % 255 := by omega
      have h2 : n = (n - 255) + 255 := by omega
      rw [h1, ih (n - 255) (by omega)]
      conv_rhs => rw [h2]
      rw [pow3_add_255]

theorem pow3_ne_zero (n : Nat) : pow3 n ≠ 0 := by
  intro h
  have hm : pow3 (n % 255) = 0 := by rw [pow3_mod]; exact h
  have hsum : (n % 255) + (255 - n % 255) = 255 := by
    have : n % 255 < 255 := Nat.mod_lt n (by norm_num)
    omega
  have h2 : pow3 255 = bmul (pow3 (n % 255)) (pow3 (255 - n % 255)) := by
    rw [bmul_pow3, hsum]
  rw [hm, bmul_zero_left, pow3_255] at h2
  exact one_ne_zero h2

/-! ### The exponent table lists the powers of 3 -/

theorem expListFrom_length : ∀ n x, (expListFrom n x).length = n := by
  intro n
  induction n with
  | zero => intro x; rfl
  | succ n ih => intro x; simp [expListFrom, ih]

theorem expListFrom_getD :
    ∀ n m k, k < n → (expListFrom n (pow3 m)).getD k 0 = pow3 (m + k) := by
  intro n
  induction n with
  | zero => intro m k hk; omega
  | succ n ih =>
    intro m k hk
    cases k with
    | zero => simp [expListFrom]
    | succ k =>
      show (expListFrom n (gf_mult_basic (pow3 m) 3)).getD k 0 = pow3 (m + (k + 1))
      have hstep : gf_mult_basic (pow3 m) 3 = pow3 (m + 1) := rfl
      rw [hstep, ih (m + 1) k (by omega)]
      congr 1
      omega

theorem exp_table_length : exp_table.length = 256 := by
  show (expListFrom 255 1 ++ [(expListFrom 255 1).getD 0 0]).length = 256
  simp [expListFrom_length]

theorem exp_table_getD {i : Nat} (h : i < 256) : exp_table.getD i 0 = pow3 i := by
  show (expListFrom 255 1 ++ [(expListFrom 255 1).getD 0 0]).getD i 0 = pow3 i
  have h1 : expListFrom 255 1 = expListFrom 255 (pow3 0) := rfl
  by_cases hi : i < 255
  · rw [List.getD_eq_getElem?_getD,
      List.getElem?_append_left (by rw [expListFrom_length]; exact hi),
      ← List.getD_eq_getElem?_getD, h1, expListFrom_getD 255 0 i hi]
    simp
  · have hi255 : i = 255 := by omega
    subst hi255
    rw [List.getD_eq_getElem?_getD,
      List.getElem?_append_right (by rw [expListFrom_length]),
      expListFrom_length]
    norm_num
    rw [h1, ← List.getD_eq_getElem?_getD, expListFrom_getD 255 0 0 (by norm_num), pow3_255]
    rfl

theorem exp_table_getD_nonzero {i : Nat} (h : i < 256) : exp_table.getD i 0 ≠ 0 := by
  rw [exp_table_getD h]
  exact pow3_ne_zero i

theorem exp_table_getD_lt {i : Nat} (h : i < 256) : exp_table.getD i 0 < 256 := by
  rw [exp_table_getD h]
  exact pow3_lt i

/-! ### Coherence of the two tables (finite checks over the literals) -/

theorem log_lt (a : Nat) : log_table.getD a 0 < 255 := by
  rw [log_table_eq]
  by_cases h : a < 256
  · exact logTab_lt a h
  · rw [List.getD_eq_getElem?_getD, List.getElem?_eq_none (by rw [logTab_length]; omega)]
    norm_num

theorem exp_log {a : Nat} (h1 : 1 ≤ a) (h2 : a < 256) :
    exp_table.getD (log_table.getD a 0) 0 = a := by
  rw [exp_table_eq, log_table_eq]
  exact exp_log_id a h2 h1

theorem pow3_log {a : Nat} (h1 : 1 ≤ a) (h2 : a < 256) :
    pow3 (log_table.getD a 0) = a := by
  rw [← exp_table_getD (lt_trans (log_lt a) (by norm_num))]
  exact exp_log h1 h2

theorem log_pow3 {i : Nat} (h : i < 255) : log_table.getD (pow3 i) 0 = i := by
  have h1 : pow3 i = exp_table.getD i 0 := (exp_table_getD (by omega)).symm
  rw [h1, exp_table_eq, log_table_eq]
  exact log_exp_id i h

/-! ### The table-based product agrees with the basic product -/

theorem gf_mult_eq_basic {a b : Nat} (ha : a < 256) (hb : b < 256) :
    gf_mult a b = gf_mult_basic a b := by
  unfold gf_mult
  split
  · next h =>
    rcases h with h | h
    · subst h
      rw [gf_mult_basic_eq_bmul b (by norm_num), bmul_zero_left]
    · subst h
      rw [gf_mult_basic_eq_bmul 0 ha, bmul_zero_right]
  · next h =>
    push_neg at h
    obtain ⟨ha0, hb0⟩ := h
    have hmod : (log_table.getD a 0 + log_table.getD b 0) % 255 < 256 := by
      have := Nat.mod_lt (log_table.getD a 0 + log_table.getD b 0) (y := 255) (by norm_num)
      omega
    rw [exp_table_getD hmod, pow3_mod, ← bmul_pow3,
      pow3_log (by omega) ha, pow3_log (by omega) hb,
      gf_mult_basic_eq_bmul b ha]

theorem gf_mult_lt (a b : Nat) : gf_mult a b < 256 := by
  unfold gf_mult
  split
  · norm_num
  · apply exp_table_getD_lt
    have := Nat.mod_lt (log_table.getD a 0 + log_table.getD b 0) (y := 255) (by norm_num)
    omega

/-! ### Field laws of the table-based operations -/

theorem gfInv_lt (b : Nat) : gfInv b < 256 := by
  unfold gfInv
  split
  · norm_num
  · apply exp_table_getD_lt
    have := Nat.mod_lt (255 - log_table.getD b 0) (y := 255) (by norm_num)
    omega

theorem gf_mult_comm (a b : Nat) : gf_mult a b = gf_mult b a := by
  by_cases ha : a = 0 <;> by_cases hb : b = 0 <;>
    simp [gf_mult, ha, hb, Nat.add_comm]

theorem gf_mult_zero_left (b : Nat) : gf_mult 0 b = 0 := by simp [gf_mult]

theorem gf_mult_zero_right (a : Nat) : gf_mult a 0 = 0 := by simp [gf_mult]

theorem gf_mult_one {a : Nat} (ha : a < 256) : gf_mult a 1 = a := by
  by_cases ha0 : a = 0
  · subst ha0; exact gf_mult_zero_left 1
  · have hlog1 : log_table.getD 1 0 = 0 := log_pow3 (i := 0) (by norm_num)
    unfold gf_mult
    rw [if_neg (by simp [ha0])]
    rw [hlog1, Nat.add_zero, Nat.mod_eq_of_lt (log_lt a),
      exp_table_getD (lt_trans (log_lt a) (by norm_num))]
    exact pow3_log (by omega) ha

theorem gf_mult_ne_zero {a b : Nat} (ha : a ≠ 0) (hb : b ≠ 0) : gf_mult a b ≠ 0 := by
  unfold gf_mult
  rw [if_neg (by simp [ha, hb])]
  apply exp_table_getD_nonzero
  have := Nat.mod_lt (log_table.getD a 0 + log_table.getD b 0) (y := 255) (by norm_num)
  omega

theorem gf_mult_eq_exp {a b : Nat} (ha : a ≠ 0) (hb : b ≠ 0) :
    gf_mult a b =
      exp_table.getD ((log_table.getD a 0 + log_table.getD b 0) % 255) 0 := by
  unfold gf_mult
  rw [if_neg (by simp [ha, hb])]

theorem log_gf_mult {a b : Nat} (ha : a ≠ 0) (hb : b ≠ 0) :
    log_table.getD (gf_mult a b) 0 =
      (log_table.getD a 0 + log_table.getD b 0) % 255 := by
  have hmod : (log_table.getD a 0 + log_table.getD b 0) % 255 < 255 :=
    Nat.mod_lt _ (by norm_num)
  rw [gf_mult_eq_exp ha hb, exp_table_getD (by omega), log_pow3 hmod]

theorem gf_mult_assoc {a b c : Nat} (ha : a < 256) (hb : b < 256) (hc : c < 256) :
    gf_mult (gf_mult a b) c = gf_mult a (gf_mult b c) := by
  by_cases ha0 : a = 0
  · subst ha0; simp [gf_mult_zero_left, gf_mult_zero_right]
  · by_cases hb0 : b = 0
    · subst hb0; simp [gf_mult_zero_left, gf_mult_zero_right]
    · by_cases hc0 : c = 0
      · subst hc0; simp [gf_mult_zero_left, gf_mult_zero_right]
      · have hab : gf_mult a b ≠ 0 := gf_mult_ne_zero ha0 hb0
        have hbc : gf_mult b c ≠ 0 := gf_mult_ne_zero hb0 hc0
        rw [gf_mult_eq_exp hab hc0, gf_mult_eq_exp ha0 hbc,
          log_gf_mult ha0 hb0, log_gf_mult hb0 hc0]
        congr 1
        omega

theorem gf_mult_xor {a b c : Nat} (ha : a < 256) (hb : b < 256) (hc : c < 256) :
    gf_mult a (b ^^^ c) = gf_mult a b ^^^ gf_mult a c := by
  have hbc : b ^^^ c < 256 := by
    have h1 : b < 2 ^ 8 := by norm_num; omega
    have h2 : c < 2 ^ 8 := by norm_num; omega
    have := Nat.xor_lt_two_pow h1 h2
    norm_num at this
    exact this
  rw [gf_mult_eq_basic ha hbc, gf_mult_eq_basic ha hb, gf_mult_eq_basic ha hc,
    gf_mult_basic_eq_bmul _ ha, gf_mult_basic_eq_bmul _ ha, gf_mult_basic_eq_bmul _ ha,
    bmul_xor_right]

theorem gf_mult_gfInv {a : Nat} (ha0 : a ≠ 0) (ha : a < 256) :
    gf_mult a (gfInv a) = 1 := by
  have hmod : (255 - log_table.getD a 0) % 255 < 255 := Nat.mod_lt _ (by norm_num)
  have hinv : gfInv a = pow3 ((255 - log_table.getD a 0) % 255) := by
    unfold gfInv
    rw [if_neg ha0, exp_table_getD (by omega)]
  have hinvnz : gfInv a ≠ 0 := by rw [hinv]; exact pow3_ne_zero _
  rw [gf_mult_eq_exp ha0 hinvnz, hinv, log_pow3 hmod]
  have hla : log_table.getD a 0 < 255 := log_lt a
  have hidx : (log_table.getD a 0 + (255 - log_table.getD a 0) % 255) % 255 = 0 := by
    omega
  rw [hidx, exp_table_getD (by norm_num)]
  rfl

/-! ### GF(256) as a Lean `Field` -/

/-- GF(256) exactly as computed by the code: elements are bytes, addition
is XOR, multiplication is the table-based `gf_mult`, the inverse is read
off the tables (`gfInv`). -/
structure GF where
  val : Nat
  isLt : val < 256
deriving DecidableEq

theorem GF.ext {x y : GF} (h : x.val = y.val) : x = y := by
  cases x; cases y; cases h; rfl

instance : Zero GF := ⟨⟨0, by norm_num⟩⟩
instance : One GF := ⟨⟨1, by norm_num⟩⟩

instance : Add GF :=
  ⟨fun x y => ⟨x.val ^^^ y.val, by
    have h1 : x.val < 2 ^ 8 := by have := x.isLt; norm_num; omega
    have h2 : y.val < 2 ^ 8 := by have := y.isLt; norm_num; omega
    have := Nat.xor_lt_two_pow h1 h2
    norm_num at this
    exact this⟩⟩

instance : Neg GF := ⟨fun x => x⟩
instance : Mul GF := ⟨fun x y => ⟨gf_mult x.val y.val, gf_mult_lt _ _⟩⟩
instance : Inv GF := ⟨fun x => ⟨gfInv x.val, gfInv_lt _⟩⟩

theorem GF.val_add (x y : GF) : (x + y).val = x.val ^^^ y.val := rfl
theorem GF.val_mul (x y : GF) : (x * y).val = gf_mult x.val y.val := rfl
theorem GF.val_zero : (0 : GF).val = 0 := rfl
theorem GF.val_one : (1 : GF).val = 1 := rfl
theorem GF.val_neg (x : GF) : (-x).val = x.val := rfl
theorem GF.val_inv (x : GF) : (x⁻¹).val = gfInv x.val := rfl

instance : CommRing GF where
  nsmul := nsmulRec
  zsmul := zsmulRec
  add_assoc x y z := by apply GF.ext; exact Nat.xor_assoc _ _ _
  zero_add x := by apply GF.ext; exact Nat.zero_xor _
  add_zero x := by apply GF.ext; exact Nat.xor_zero _
  add_comm x y := by apply GF.ext; exact Nat.xor_comm _ _
  neg_add_cancel x := by apply GF.ext; exact Nat.xor_self _
  mul_assoc x y z := by apply GF.ext; exact gf_mult_assoc x.isLt y.isLt z.isLt
  one_mul x := by
    apply GF.ext
    show gf_mult 1 x.val = x.val
    rw [gf_mult_comm, gf_mult_one x.isLt]
  mul_one x := by
    apply GF.ext
    show gf_mult x.val 1 = x.val
    rw [gf_mult_one x.isLt]
  zero_mul x := by
    apply GF.ext
    show gf_mult 0 x.val = 0
    exact gf_mult_zero_left x.val
  mul_zero x := by
    apply GF.ext
    show gf_mult x.val 0 = 0
    exact gf_mult_zero_right x.val
  mul_comm x y := by apply GF.ext; exact gf_mult_comm _ _
  left_distrib x y z := by apply GF.ext; exact gf_mult_xor x.isLt y.isLt z.isLt
  right_distrib x y z := by
    apply GF.ext
    show gf_mult (x.val ^^^ y.val) z.val = gf_mult x.val z.val ^^^ gf_mult y.val z.val
    rw [gf_mult_comm (x.val ^^^ y.val), gf_mult_xor z.isLt x.isLt y.isLt,
      gf_mult_comm z.val x.val, gf_mult_comm z.val y.val]

instance : Field GF where
  exists_pair_ne := ⟨0, 1, by
    intro h
    have := congrArg GF.val h
    simp [GF.val_zero, GF.val_one] at this⟩
  mul_inv_cancel x hx := by
    apply GF.ext
    show gf_mult x.val (gfInv x.val) = 1
    apply gf_mult_gfInv _ x.isLt
    intro h0
    exact hx (GF.ext h0)
  inv_zero := by apply GF.ext; rfl
  nnqsmul := _
  qsmul := _

/-! ### Polynomial evaluation and Lagrange interpolation (the code) -/

/-- `_evaluate_polynomial(coefficients, x)`: Horner evaluation, iterating
over the reversed coefficient list. -/
def evaluate_polynomial (coefficients : List Nat) (x : Nat) : Nat :=
  coefficients.reverse.foldl (fun result coeff => gf_mult result x ^^^ coeff) 0

/-- The inner loop of `_lagrange_interpolation` computing the Lagrange
basis value `L_i(x)`: `j` runs with its index over all points (the list
`pts` is `points.enum`), skipping `j = i`. -/
def lagrangeLi (x xi : Nat) (i : Nat) (pts : List (Nat × (Nat × Nat))) :
    Except String Nat :=
  pts.foldlM
    (fun li jp =>
      if i ≠ jp.fst then
        if xi = jp.snd.fst then
          Except.error "Duplicate x-coordinates in interpolation points"
        else do
          let d ← gf_div (x ^^^ jp.snd.fst) (xi ^^^ jp.snd.fst)
          pure (gf_mult li d)
      else pure li)
    1

/-- `_lagrange_interpolation(points, x)`. -/
def lagrange_interpolation (points : List (Nat × Nat)) (x : Nat) :
    Except String Nat :=
  if points.isEmpty then Except.error "No points provided for interpolation"
  else
    points.enum.foldlM
      (fun result ip => do
        let li ← lagrangeLi x ip.snd.fst ip.fst points.enum
        pure (result ^^^ gf_mult ip.snd.snd li))
      0

/-! ### Base62 codec -/

/-- The digit loop of `_encode_base62`: while `num > 0`, prepend
`alphabet[num % 62]` and divide by 62.  The loop runs
`⌈log62 num⌉ ≤ num` times, so fuel `num` never runs out. -/
def b62Digits : Nat → Nat → List Char
  | 0, _ => []
  | fuel+1, num =>
    if num = 0 then []
    else b62Digits fuel (num / 62) ++ [BASE62_ALPHABET.getD (num % 62) '0']

/-- `int.from_bytes(data, byteorder="big")`. -/
def fromBytesBE (l : List Nat) : Nat := l.foldl (fun n b => n * 256 + b) 0

/-- `num.to_bytes((num.bit_length() + 7) // 8, "big")` for `num > 0`: the
minimal big-endian byte string of `num`, with the same fuel pattern (the
byte loop runs `⌈log256 num⌉ ≤ num` times). -/
def toBytesAux : Nat → Nat → List Nat
  | 0, _ => []
  | fuel+1, n => if n = 0 then [] else toBytesAux fuel (n / 256) ++ [n % 256]

def toBytesBE (n : Nat) : List Nat := toBytesAux n n

/-- `_encode_base62(data)`. -/
def encode_base62 (data : List Nat) : List Char :=
  if data = [] then []
  else
    let num := fromBytesBE data
    if num = 0 then [BASE62_ALPHABET.getD 0 '0']
    else b62Digits num num

/-- `_decode_base62(encoded)`. -/
def decode_base62 (encoded : List Char) : Except String (List Nat) :=
  if encoded = [] then Except.ok []
  else do
    let num ← encoded.foldlM
      (fun n c =>
        if c ∈ BASE62_ALPHABET then
          Except.ok (n * 62 + BASE62_ALPHABET.indexOf c)
        else Except.error s!"Invalid Base62 character: {c}")
      0
    if num = 0 then pure [0]
    else pure (toBytesBE num)

/-! ### Share framer -/

/-- `n.to_bytes(2, "big")`.  The callers pass lengths below 65536 (the
split path validates the secret to at most 10000 bytes and pads to at
most `max 200 10000` bytes), where the `% 256` is exact. -/
def toBytes2BE (n : Nat) : List Nat := [n / 256 % 256, n % 256]

/-- `_format_share_with_original_length(share_id, share_data,
original_secret_length)`.  `rng` is the stream of values that successive
`secure_random_int(1, 255)` calls inside this call return; the second
component of the result is how many the call consumed. -/
def format_share_with_original_length (rng : Nat → Nat) (share_id : Nat)
    (share_data : List Nat) (original_secret_length : Nat) :
    List Char × Nat :=
  let padded_length := share_data.length
  let header := [share_id] ++ toBytes2BE original_secret_length ++ toBytes2BE padded_length
  let base_data := header ++ share_data
  let encoded := encode_base62 base_data
  if encoded.length < 250 then
    let padding_needed := 250 - encoded.length
    let additional_padding := (List.range (padding_needed / 3 + 10)).map rng
    let padding_encoded := encode_base62 additional_padding
    let encoded2 := encoded ++ padding_encoded
    (if encoded2.length > 250 then encoded2.take 250 else encoded2,
      padding_needed / 3 + 10)
  else (encoded, 0)

/-- The body of the `try` block of `_parse_base62_share(share_str)`. -/
def parse_base62_share_inner (share_str : List Char) :
    Except String (Nat × List Nat) := do
  let decoded_bytes ← decode_base62 share_str
  if decoded_bytes.length < 5 then
    if decoded_bytes.length ≥ 2 then
      let share_id := decoded_bytes.getD 0 0
      let original_length := decoded_bytes.getD 1 0
      if 1 ≤ share_id ∧ share_id ≤ 255 then
        pure (share_id, (decoded_bytes.drop 2).take original_length)
      else Except.error "Share too short"
    else Except.error "Share too short"
  else
    let share_id := decoded_bytes.getD 0 0
    let original_length := decoded_bytes.getD 1 0 * 256 + decoded_bytes.getD 2 0
    let padded_length := decoded_bytes.getD 3 0 * 256 + decoded_bytes.getD 4 0
    if share_id < 1 ∨ 255 < share_id then
      Except.error s!"Invalid share ID: {share_id}"
    else
      let share_data := decoded_bytes.drop 5
      if share_data.length ≠ padded_length then
        Except.error "Share data length mismatch"
      else
        pure (share_id, share_data.take original_length)

/-- `_parse_base62_share(share_str)`: any failure inside the `try` block
is re-raised as `Failed to parse share: …`. -/
def parse_base62_share (share_str : List Char) : Except String (Nat × List Nat) :=
  match parse_base62_share_inner share_str with
  | .ok v => .ok v
  | .error e => .error ("Failed to parse share: " ++ e)

/-! ### Validators (`src/crypto/security.py`) -/

/-- `SecurityValidator.validate_share_parameters(total_shares, threshold)`.
The `isinstance(_, int)` guards hold by the typing of the embedding, so
the first check of the source never fires here. -/
def validate_share_parameters (total_shares threshold : Int) : Bool × String :=
  if total_shares < 2 then (false, "Total shares must be at least 2")
  else if total_shares > 255 then (false, "Total shares cannot exceed 255")
  else if threshold < 2 then (false, "Threshold must be at least 2")
  else if threshold > total_shares then (false, "Threshold cannot exceed total shares")
  else (true, "")

/-- `SecurityValidator.validate_secret_length(secret, max_length=10000)`
on the UTF-8 byte view of the secret.  The source counts code points
(`len(secret)`), the embedding counts UTF-8 bytes; a byte count in
`[1, max_length]` implies a code-point count in the same range, so on the
domain of every claim (byte length between 1 and 10000) the two agree.
`"\x00" in secret` is exactly byte 0 occurring in the UTF-8 encoding. -/
def validate_secret_length (secretBytes : List Nat) (max_length : Nat) :
    Bool × String :=
  if secretBytes.length < 1 then (false, "Secret must be at least 1 characters")
  else if secretBytes.length > max_length then
    (false, "Secret cannot exceed " ++ toString max_length ++ " characters")
  else if 0 ∈ secretBytes then (false, "Secret cannot contain null bytes")
  else (true, "")

/-! ### The Shamir engine -/

/-- The two nested loops of `generate_shares` that build the per-share
vectors `[share_index, f_0(share_index), f_1(share_index), …]`: the outer
loop runs over byte positions, the inner loop over share indices appends
a fresh `[share_index, value]` on byte 0 and extends
`shares[share_index - 1]` on later bytes. -/
def buildShares (coeffs : Nat → List Nat) (total_shares : Nat) (len : Nat) :
    List (List Nat) :=
  (List.range len).foldl
    (fun shares byte_index =>
      (List.range total_shares).foldl
        (fun shares share_j =>
          let share_value := evaluate_polynomial (coeffs byte_index) (share_j + 1)
          if byte_index = 0 then shares ++ [[share_j + 1, share_value]]
          else shares.set share_j (shares.getD share_j [] ++ [share_value]))
        shares)
    []

/-- `generate_shares(secret, total_shares, threshold)` on the UTF-8 byte
view of the secret.  `rng` is the stream of values that successive
`secure_random_int(1, 255)` calls return, in execution order: first the
`200 - L` padding bytes (when the secret is shorter than 200 bytes), then
the `threshold - 1` random coefficients for byte position 0, then for
byte position 1, and so on.  The transport-padding loop inside
`_format_share_with_original_length` would draw next, one share after the
other, but it never runs for generated shares (their Base62 encoding is
always at least 250 characters), so every format call sees the stream at
the same offset and consumes nothing. -/
def generate_shares (rng : Nat → Nat) (secretBytes : List Nat)
    (total_shares threshold : Nat) : Except String (List (List Char)) :=
  let v1 := validate_share_parameters total_shares threshold
  if ¬ v1.fst then Except.error v1.snd
  else
    let v2 := validate_secret_length secretBytes 10000
    if ¬ v2.fst then Except.error v2.snd
    else
      let original_length := secretBytes.length
      let padCount := if secretBytes.length < 200 then 200 - secretBytes.length else 0
      let secret_bytes :=
        if secretBytes.length < 200 then
          secretBytes ++ (List.range padCount).map rng
        else secretBytes
      let coeffs := fun byte_index : Nat =>
        secret_bytes.getD byte_index 0 ::
          (List.range (threshold - 1)).map
            (fun t => rng (padCount + byte_index * (threshold - 1) + t))
      let shares := buildShares coeffs total_shares secret_bytes.length
      Except.ok (shares.map (fun share =>
        (format_share_with_original_length
          (fun t => rng (padCount + secret_bytes.length * (threshold - 1) + t))
          (share.headD 0) (share.drop 1) original_length).fst))

/-- `int(c, 16)` for one hex digit. -/
def hexDigitVal (c : Char) : Option Nat :=
  if '0' ≤ c ∧ c ≤ '9' then some (c.toNat - '0'.toNat)
  else if 'a' ≤ c ∧ c ≤ 'f' then some (c.toNat - 'a'.toNat + 10)
  else if 'A' ≤ c ∧ c ≤ 'F' then some (c.toNat - 'A'.toNat + 10)
  else none

/-- `int(s, 16)` on a non-empty all-hex string.  Python also accepts
surrounding whitespace, a sign, a 0x prefix and underscores between
digits; this model rejects those forms, a divergence confined to the
legacy dash-hex fallback path. -/
def parseHexNat (s : List Char) : Option Nat :=
  if s = [] then none
  else s.foldlM (fun n c => (hexDigitVal c).map (fun d => n * 16 + d)) 0

/-- The two-digit grouping of the hex value loop of `reconstruct_secret`. -/
def hexPairs : List Char → Option (List Nat)
  | [] => some []
  | c1 :: c2 :: rest => do
    let d1 ← hexDigitVal c1
    let d2 ← hexDigitVal c2
    let r ← hexPairs rest
    pure ((d1 * 16 + d2) :: r)
  | [_] => none

/-- The legacy dash-separated hex fallback of the parse loop of
`reconstruct_secret`, with the running `secret_length` state; every
failure is wrapped as `Failed to parse share: …`. -/
def parseHexShare (share_str : List Char) (secret_length : Option Nat) :
    Except String ((Nat × List Nat) × Option Nat) :=
  let inner : Except String ((Nat × List Nat) × Option Nat) :=
    if ¬ share_str.contains '-' then Except.error "Invalid share format"
    else
      let share_id_hex := share_str.takeWhile (fun c => c ≠ '-')
      let values_hex := (share_str.dropWhile (fun c => c ≠ '-')).drop 1
      match parseHexNat share_id_hex with
      | none => Except.error "invalid hexadecimal share ID"
      | some share_id =>
        if share_id < 1 ∨ 255 < share_id then
          Except.error s!"Invalid share ID: {share_id}"
        else if values_hex.length % 2 ≠ 0 then
          Except.error "Invalid share values length"
        else
          match hexPairs values_hex with
          | none => Except.error "invalid hexadecimal share values"
          | some values =>
            match secret_length with
            | none => Except.ok ((share_id, values), some values.length)
            | some L =>
              if values.length = L then Except.ok ((share_id, values), some L)
              else Except.error "Inconsistent share lengths"
  match inner with
  | .ok v => .ok v
  | .error e => .error ("Failed to parse share: " ++ e)

/-- One iteration of the parse loop of `reconstruct_secret`: try the
Base62 format, keeping the running `secret_length` consistent (a longer
vector is truncated, a shorter one raises `Inconsistent share lengths`);
any `ValueError` inside the `try` block — a Base62 parse failure or that
very length error — falls through to the legacy hex format. -/
def parseOneShare (share_str : List Char) (secret_length : Option Nat) :
    Except String ((Nat × List Nat) × Option Nat) :=
  let attempt : Except String ((Nat × List Nat) × Option Nat) := do
    let p ← parse_base62_share share_str
    match secret_length with
    | none => pure (p, some p.snd.length)
    | some L =>
      if p.snd.length = L then pure (p, some L)
      else if p.snd.length > L then pure ((p.fst, p.snd.take L), some L)
      else Except.error "Inconsistent share lengths"
  match attempt with
  | .ok v => .ok v
  | .error _ => parseHexShare share_str secret_length

/-- The parse loop of `reconstruct_secret` over all input strings. -/
def parseAllShares : List (List Char) → Option Nat → List (Nat × List Nat) →
    Except String (List (Nat × List Nat) × Option Nat)
  | [], sl, acc => .ok (acc.reverse, sl)
  | s :: rest, sl, acc => do
    let r ← parseOneShare s sl
    parseAllShares rest r.snd (r.fst :: acc)

/-- `reconstruct_secret(shares)` up to the assembly of `secret_bytes`:
everything before the final `bytes(secret_bytes).decode("utf-8")`.
The full function, decode step included, is
`reconstruct_secret_string` below. -/
def reconstruct_secret (shares : List (List Char)) : Except String (List Nat) :=
  if shares.isEmpty then Except.error "No shares provided"
  else do
    let pr ← parseAllShares shares none []
    if pr.fst.isEmpty then Except.error "No valid shares found"
    else
      (List.range (pr.snd.getD 0)).mapM
        (fun byte_index =>
          lagrange_interpolation
            (pr.fst.map (fun s => (s.fst, s.snd.getD byte_index 0))) 0)

/-- Validity of a byte string as UTF-8, exactly what
`bytes(...).decode("utf-8")` checks (RFC 3629): no byte above 0xF4, no
stray continuation byte, no overlong form (C0/C1 banned, E0 needs A0..BF,
F0 needs 90..BF), no surrogate (ED limited to 80..9F), nothing above
U+10FFFF (F4 limited to 80..8F), and no truncated sequence. -/
def isValidUtf8 : List Nat → Bool
  | [] => true
  | b :: rest =>
    if b ≤ 0x7f then isValidUtf8 rest
    else if 0xc2 ≤ b ∧ b ≤ 0xdf then
      match rest with
      | c1 :: rest1 =>
        if 0x80 ≤ c1 ∧ c1 ≤ 0xbf then isValidUtf8 rest1 else false
      | [] => false
    else if 0xe0 ≤ b ∧ b ≤ 0xef then
      match rest with
      | c1 :: c2 :: rest2 =>
        if (if b = 0xe0 then 0xa0 ≤ c1 ∧ c1 ≤ 0xbf
            else if b = 0xed then 0x80 ≤ c1 ∧ c1 ≤ 0x9f
            else 0x80 ≤ c1 ∧ c1 ≤ 0xbf) ∧ 0x80 ≤ c2 ∧ c2 ≤ 0xbf then
          isValidUtf8 rest2
        else false
      | _ => false
    else if 0xf0 ≤ b ∧ b ≤ 0xf4 then
      match rest with
      | c1 :: c2 :: c3 :: rest3 =>
        if (if b = 0xf0 then 0x90 ≤ c1 ∧ c1 ≤ 0xbf
            else if b = 0xf4 then 0x80 ≤ c1 ∧ c1 ≤ 0x8f
            else 0x80 ≤ c1 ∧ c1 ≤ 0xbf) ∧
            0x80 ≤ c2 ∧ c2 ≤ 0xbf ∧ 0x80 ≤ c3 ∧ c3 ≤ 0xbf then
          isValidUtf8 rest3
        else false
      | _ => false
    else false

/-- The full `reconstruct_secret(shares)` including the final
`bytes(secret_bytes).decode("utf-8")`: a `UnicodeDecodeError` is
re-raised as `ValueError("Reconstructed data is not valid UTF-8")`.
The result is the UTF-8 byte view of the returned string, which is the
assembled byte list itself when that list is valid UTF-8. -/
def reconstruct_secret_string (shares : List (List Char)) :
    Except String (List Nat) :=
  match reconstruct_secret shares with
  | .ok secret_bytes =>
    if isValidUtf8 secret_bytes then .ok secret_bytes
    else .error "Reconstructed data is not valid UTF-8"
  | .error e => .error e

/-! ### Base62 codec: round trips and length bounds -/

theorem alphabet_length : BASE62_ALPHABET.length = 62 := by decide

theorem alphabet_nodup : BASE62_ALPHABET.Nodup := by decide

theorem alphabet_indexOf_getD :
    ∀ d < 62, BASE62_ALPHABET.indexOf (BASE62_ALPHABET.getD d '0') = d := by decide

theorem alphabet_getD_mem : ∀ d < 62, BASE62_ALPHABET.getD d '0' ∈ BASE62_ALPHABET := by
  decide

theorem b62Digits_zero (f : Nat) : b62Digits f 0 = [] := by
  cases f <;> simp [b62Digits]

theorem b62Digits_congr :
    ∀ n f g, n ≤ f → n ≤ g → b62Digits f n = b62Digits g n := by
  intro n
  induction n using Nat.strong_induction_on with
  | _ n ih =>
    intro f g hf hg
    rcases Nat.eq_zero_or_pos n with hn | hn
    · subst hn
      rw [b62Digits_zero, b62Digits_zero]
    · obtain ⟨x, rfl⟩ : ∃ x, f = x + 1 := ⟨f - 1, by omega⟩
      obtain ⟨y, rfl⟩ : ∃ y, g = y + 1 := ⟨g - 1, by omega⟩
      have hn0 : ¬(n = 0) := by omega
      simp only [b62Digits]
      rw [if_neg hn0, if_neg hn0]
      congr 1
      exact ih (n / 62) (by omega) x y (by omega) (by omega)

theorem b62Digits_step {n : Nat} (hn : n ≠ 0) :
    b62Digits n n = b62Digits (n / 62) (n / 62) ++ [BASE62_ALPHABET.getD (n % 62) '0'] := by
  obtain ⟨m, rfl⟩ : ∃ m, n = m + 1 := ⟨n - 1, by omega⟩
  simp only [b62Digits]
  rw [if_neg hn]
  congr 1
  exact b62Digits_congr ((m + 1) / 62) m ((m + 1) / 62) (by omega) (by omega)

theorem toBytesAux_zero (f : Nat) : toBytesAux f 0 = [] := by
  cases f <;> simp [toBytesAux]

theorem toBytesAux_congr :
    ∀ n f g, n ≤ f → n ≤ g → toBytesAux f n = toBytesAux g n := by
  intro n
  induction n using Nat.strong_induction_on with
  | _ n ih =>
    intro f g hf hg
    rcases Nat.eq_zero_or_pos n with hn | hn
    · subst hn
      rw [toBytesAux_zero, toBytesAux_zero]
    · obtain ⟨x, rfl⟩ : ∃ x, f = x + 1 := ⟨f - 1, by omega⟩
      obtain ⟨y, rfl⟩ : ∃ y, g = y + 1 := ⟨g - 1, by omega⟩
      have hn0 : ¬(n = 0) := by omega
      simp only [toBytesAux]
      rw [if_neg hn0, if_neg hn0]
      congr 1
      exact ih (n / 256) (by omega) x y (by omega) (by omega)

theorem toBytesBE_step {n : Nat} (hn : n ≠ 0) :
    toBytesBE n = toBytesBE (n / 256) ++ [n % 256] := by
  show toBytesAux n n = toBytesAux (n / 256) (n / 256) ++ [n % 256]
  obtain ⟨m, rfl⟩ : ∃ m, n = m + 1 := ⟨n - 1, by omega⟩
  simp only [toBytesAux]
  rw [if_neg hn]
  congr 1
  exact toBytesAux_congr ((m + 1) / 256) m ((m + 1) / 256) (by omega) (by omega)

theorem toBytesBE_zero : toBytesBE 0 = [] := rfl

/-- The accumulator form of `int.from_bytes`. -/
theorem fromBytesBE_acc (l : List Nat) :
    ∀ a, l.foldl (fun n b => n * 256 + b) a = a * 256 ^ l.length + fromBytesBE l := by
  induction l with
  | nil => intro a; simp [fromBytesBE]
  | cons b l ih =>
    intro a
    show l.foldl _ (a * 256 + b) = _
    rw [ih (a * 256 + b)]
    show _ = a * 256 ^ (l.length + 1) + (b :: l).foldl (fun n b => n * 256 + b) 0
    show _ = a * 256 ^ (l.length + 1) + l.foldl (fun n b => n * 256 + b) (0 * 256 + b)
    rw [ih (0 * 256 + b)]
    ring

theorem fromBytesBE_cons (b : Nat) (l : List Nat) :
    fromBytesBE (b :: l) = b * 256 ^ l.length + fromBytesBE l := by
  show l.foldl (fun n b => n * 256 + b) (0 * 256 + b) = _
  rw [fromBytesBE_acc l (0 * 256 + b)]
  ring

theorem fromBytesBE_append_singleton (l : List Nat) (b : Nat) :
    fromBytesBE (l ++ [b]) = fromBytesBE l * 256 + b := by
  show (l ++ [b]).foldl (fun n b => n * 256 + b) 0 = _
  rw [List.foldl_append]
  rfl

theorem fromBytesBE_lt (l : List Nat) (h : ∀ b ∈ l, b < 256) :
    fromBytesBE l < 256 ^ l.length := by
  induction l with
  | nil => simp [fromBytesBE]
  | cons b l ih =>
    rw [fromBytesBE_cons]
    have hb : b < 256 := h b (by simp)
    have hl : fromBytesBE l < 256 ^ l.length := ih (fun x hx => h x (by simp [hx]))
    have : (b + 1) * 256 ^ l.length ≤ 256 ^ (l.length + 1) := by
      rw [pow_succ, Nat.mul_comm (256 ^ l.length) 256]
      exact Nat.mul_le_mul_right _ (by omega)
    calc b * 256 ^ l.length + fromBytesBE l
        < b * 256 ^ l.length + 256 ^ l.length := by omega
    _ = (b + 1) * 256 ^ l.length := by ring
    _ ≤ 256 ^ (l.length + 1) := this
    _ = 256 ^ (b :: l).length := by simp

theorem fromBytesBE_ge (b : Nat) (l : List Nat) :
    b * 256 ^ l.length ≤ fromBytesBE (b :: l) := by
  rw [fromBytesBE_cons]
  omega

theorem fromBytesBE_pos {l : List Nat} (hne : l ≠ []) (hhd : l.getD 0 0 ≠ 0) :
    0 < fromBytesBE l := by
  obtain ⟨b, rest, rfl⟩ : ∃ b rest, l = b :: rest := by
    cases l with
    | nil => exact absurd rfl hne
    | cons b rest => exact ⟨b, rest, rfl⟩
  have hb : b ≠ 0 := hhd
  have := fromBytesBE_ge b rest
  have hpow : 0 < 256 ^ rest.length := Nat.pos_pow_of_pos _ (by norm_num)
  have : 1 * 256 ^ rest.length ≤ b * 256 ^ rest.length :=
    Nat.mul_le_mul_right _ (by omega)
  omega

theorem fromBytesBE_zero_of_all_zero {l : List Nat} (h : ∀ b ∈ l, b = 0) :
    fromBytesBE l = 0 := by
  induction l with
  | nil => rfl
  | cons b l ih =>
    rw [fromBytesBE_cons, h b (by simp), ih (fun x hx => h x (by simp [hx]))]
    simp

/-- `toBytesBE` inverts `int.from_bytes` on byte strings with a non-zero
leading byte. -/
theorem toBytesBE_fromBytesBE :
    ∀ l : List Nat, (∀ b ∈ l, b < 256) → l.getD 0 0 ≠ 0 →
      toBytesBE (fromBytesBE l) = l := by
  intro l
  induction l using List.reverseRecOn with
  | nil => intro _ hhd; exact absurd rfl hhd
  | append_singleton l b ih =>
    intro hlt hhd
    cases l with
    | nil =>
      have hb : b ≠ 0 := hhd
      have hblt : b < 256 := hlt b (by simp)
      show toBytesBE (fromBytesBE [b]) = [b]
      have h1 : fromBytesBE [b] = b := by
        rw [show ([b] : List Nat) = [] ++ [b] from rfl, fromBytesBE_append_singleton]
        simp [fromBytesBE]
      rw [h1, toBytesBE_step hb, Nat.div_eq_of_lt hblt, toBytesBE_zero,
        Nat.mod_eq_of_lt hblt]
      rfl
    | cons c rest =>
      have hhd2 : (c :: rest).getD 0 0 ≠ 0 := by
        simpa using hhd
      have hlt2 : ∀ x ∈ c :: rest, x < 256 := by
        intro x hx
        apply hlt
        simp only [List.cons_append, List.mem_cons, List.mem_append] at hx ⊢
        tauto
      have hblt : b < 256 := hlt b (by simp)
      rw [fromBytesBE_append_singleton]
      have hpos : 0 < fromBytesBE (c :: rest) :=
        fromBytesBE_pos (by simp) hhd2
      have hne : fromBytesBE (c :: rest) * 256 + b ≠ 0 := by
        have : 256 ≤ fromBytesBE (c :: rest) * 256 := by omega
        omega
      rw [toBytesBE_step hne]
      have hdiv : (fromBytesBE (c :: rest) * 256 + b) / 256 = fromBytesBE (c :: rest) := by
        omega
      have hmod : (fromBytesBE (c :: rest) * 256 + b) % 256 = b := by
        omega
      rw [hdiv, hmod, ih hlt2 hhd2]

/-- The decode loop evaluated over the digit string of `num`. -/
theorem decode_fold_b62Digits (num : Nat) :
    ∀ a, (b62Digits num num).foldlM
        (fun n c =>
          if c ∈ BASE62_ALPHABET then
            Except.ok (n * 62 + BASE62_ALPHABET.indexOf c)
          else Except.error s!"Invalid Base62 character: {c}")
        a =
      Except.ok (a * 62 ^ (b62Digits num num).length + num) := by
  induction num using Nat.strong_induction_on with
  | _ num ih =>
    intro a
    rcases Nat.eq_zero_or_pos num with hn | hn
    · subst hn
      rw [b62Digits_zero]
      show Except.ok a = _
      simp
    · rw [b62Digits_step (by omega), List.foldlM_append, ih (num / 62) (by omega) a]
      have hmem := alphabet_getD_mem (num % 62) (by omega)
      have hidx := alphabet_indexOf_getD (num % 62) (by omega)
      simp only [List.foldlM_cons, List.foldlM_nil, if_pos hmem, hidx]
      show Except.ok
          ((a * 62 ^ (b62Digits (num / 62) (num / 62)).length + num / 62) * 62 + num % 62) =
        _
      have hdm : num / 62 * 62 + num % 62 = num := by omega
      congr 1
      rw [List.length_append]
      calc (a * 62 ^ (b62Digits (num / 62) (num / 62)).length + num / 62) * 62 + num % 62
          = a * (62 ^ (b62Digits (num / 62) (num / 62)).length * 62) +
              (num / 62 * 62 + num % 62) := by ring
      _ = a * 62 ^ ((b62Digits (num / 62) (num / 62)).length +
            [BASE62_ALPHABET.getD (num % 62) '0'].length) + num := by
          rw [hdm, List.length_singleton, pow_succ]

/-- `num` is below 62 to the number of its digits. -/
theorem b62Digits_lt (num : Nat) : num < 62 ^ (b62Digits num num).length := by
  induction num using Nat.strong_induction_on with
  | _ num ih =>
    rcases Nat.eq_zero_or_pos num with hn | hn
    · subst hn
      rw [b62Digits_zero]
      norm_num
    · rw [b62Digits_step (by omega), List.length_append]
      have h1 : num / 62 < 62 ^ (b62Digits (num / 62) (num / 62)).length :=
        ih (num / 62) (by omega)
      have h2 : num < 62 * (num / 62 + 1) := by omega
      calc num < 62 * (num / 62 + 1) := h2
      _ ≤ 62 * 62 ^ (b62Digits (num / 62) (num / 62)).length := by
          exact Nat.mul_le_mul_left _ (by omega)
      _ = 62 ^ ((b62Digits (num / 62) (num / 62)).length + 1) := by
          rw [pow_succ, Nat.mul_comm]
      _ = 62 ^ ((b62Digits (num / 62) (num / 62)).length + [BASE62_ALPHABET.getD (num % 62) '0'].length) := rfl

/-- Every digit the encoder emits is an alphabet character. -/
theorem b62Digits_mem_alphabet (num : Nat) :
    ∀ c ∈ b62Digits num num, c ∈ BASE62_ALPHABET := by
  induction num using Nat.strong_induction_on with
  | _ num ih =>
    intro c hc
    rcases Nat.eq_zero_or_pos num with hn | hn
    · subst hn; rw [b62Digits_zero] at hc; simp at hc
    · rw [b62Digits_step (by omega)] at hc
      rcases List.mem_append.mp hc with h | h
      · exact ih (num / 62) (by omega) c h
      · have : c = BASE62_ALPHABET.getD (num % 62) '0' := by simpa using h
        subst this
        exact alphabet_getD_mem (num % 62) (by omega)

/-! ### Horner evaluation as polynomial evaluation over `GF` -/

/-- The polynomial with the given (low-to-high) coefficient list (a
proof-side bridge into Mathlib's polynomials, not part of the code). -/
noncomputable def toPoly : List GF → Polynomial GF :=
  fun l => l.foldr (fun c p => Polynomial.C c + Polynomial.X * p) 0

theorem toPoly_nil : toPoly [] = 0 := rfl

theorem toPoly_cons (c : GF) (l : List GF) :
    toPoly (c :: l) = Polynomial.C c + Polynomial.X * toPoly l := rfl

theorem evaluate_polynomial_eq (l : List GF) (x : GF) :
    evaluate_polynomial (l.map GF.val) x.val = ((toPoly l).eval x).val := by
  induction l with
  | nil =>
    show (0 : Nat) = ((0 : Polynomial GF).eval x).val
    rw [Polynomial.eval_zero]
    rfl
  | cons c l ih =>
    show ((c :: l).map GF.val).reverse.foldl
        (fun result coeff => gf_mult result x.val ^^^ coeff) 0 = _
    rw [List.map_cons, List.reverse_cons, List.foldl_append]
    have hbase : (l.map GF.val).reverse.foldl
        (fun result coeff => gf_mult result x.val ^^^ coeff) 0 =
        ((toPoly l).eval x).val := ih
    rw [hbase]
    show gf_mult ((toPoly l).eval x).val x.val ^^^ c.val = _
    rw [toPoly_cons]
    have : ((Polynomial.C c + Polynomial.X * toPoly l).eval x) =
        c + x * (toPoly l).eval x := by
      simp [Polynomial.eval_add, Polynomial.eval_mul]
    rw [this]
    show _ = c.val ^^^ gf_mult x.val ((toPoly l).eval x).val
    rw [gf_mult_comm, Nat.xor_comm]

theorem toPoly_degree_lt (l : List GF) :
    (toPoly l).degree < (l.length : WithBot ℕ) := by
  induction l with
  | nil =>
    rw [toPoly_nil, Polynomial.degree_zero]
    exact WithBot.bot_lt_coe 0
  | cons c l ih =>
    rw [toPoly_cons]
    have hlen : (((c :: l).length : ℕ) : WithBot ℕ) = ((l.length + 1 : ℕ) : WithBot ℕ) := by
      norm_num
    rw [hlen]
    apply lt_of_le_of_lt (Polynomial.degree_add_le _ _)
    rw [max_lt_iff]
    constructor
    · apply lt_of_le_of_lt Polynomial.degree_C_le
      exact_mod_cast Nat.succ_pos l.length
    · apply lt_of_le_of_lt (Polynomial.degree_mul_le _ _)
      rw [Polynomial.degree_X]
      rcases hd : (toPoly l).degree with _ | d
      · show (1 : WithBot ℕ) + (⊥ : WithBot ℕ) < _
        rw [WithBot.add_bot]
        exact WithBot.bot_lt_coe _
      · rw [hd] at ih
        have hsome : (some d : WithBot ℕ) = ((d : ℕ) : WithBot ℕ) := rfl
        rw [hsome] at ih
        have hdlt : d < l.length := by exact_mod_cast ih
        rw [hsome]
        have hcast : (1 : WithBot ℕ) + ((d : ℕ) : WithBot ℕ) = ((1 + d : ℕ) : WithBot ℕ) := by
          push_cast
          ring
        rw [hcast]
        exact_mod_cast (by omega : 1 + d < l.length + 1)

theorem toPoly_eval_zero (l : List GF) : (toPoly l).eval 0 = l.headD 0 := by
  cases l with
  | nil => simp [toPoly_nil]
  | cons c l =>
    rw [toPoly_cons]
    simp

/-! ### `gf_div` is field division -/

theorem GF.val_sub (x y : GF) : (x - y).val = x.val ^^^ y.val := rfl

theorem GF.val_ne {x y : GF} (h : x ≠ y) : x.val ≠ y.val := fun hv => h (GF.ext hv)

theorem gf_div_spec (a b : GF) (hb : b ≠ 0) :
    gf_div a.val b.val = .ok ((a * b⁻¹).val) := by
  have hbv : b.val ≠ 0 := GF.val_ne hb
  unfold gf_div
  by_cases ha : a.val = 0
  · rw [if_pos ha]
    have ha0 : a = 0 := GF.ext ha
    subst ha0
    rw [zero_mul]
    rfl
  · rw [if_neg ha, if_neg hbv]
    show Except.ok _ = Except.ok (gf_mult a.val (gfInv b.val))
    congr 1
    have hmod : (255 - log_table.getD b.val 0) % 255 < 255 := Nat.mod_lt _ (by norm_num)
    have hinv : gfInv b.val = pow3 ((255 - log_table.getD b.val 0) % 255) := by
      unfold gfInv
      rw [if_neg hbv, exp_table_getD (by omega)]
    have hinvnz : gfInv b.val ≠ 0 := by rw [hinv]; exact pow3_ne_zero _
    rw [gf_mult_eq_exp ha hinvnz, hinv, log_pow3 hmod]
    congr 1
    have hla : log_table.getD a.val 0 < 255 := log_lt _
    have hlb : log_table.getD b.val 0 < 255 := log_lt _
    omega

/-! ### The interpolation loops compute the Lagrange interpolant -/

theorem lagrangeLi_fold (w : GF) (m : Nat) (v r : Fin m → GF) (i : Fin m)
    (hdist : ∀ j : Fin m, j ≠ i → v j ≠ v i) :
    ∀ (l : List (Fin m)) (a : GF),
      (l.map (fun j => (j.val, ((v j).val, (r j).val)))).foldlM
          (fun li jp =>
            if i.val ≠ jp.fst then
              if (v i).val = jp.snd.fst then
                Except.error "Duplicate x-coordinates in interpolation points"
              else do
                let d ← gf_div (w.val ^^^ jp.snd.fst) ((v i).val ^^^ jp.snd.fst)
                pure (gf_mult li d)
            else pure li)
          a.val =
        .ok ((a *
          (l.map (fun j => if j = i then 1 else (w - v j) * (v i - v j)⁻¹)).prod).val) := by
  intro l
  induction l with
  | nil =>
    intro a
    show Except.ok a.val = _
    rw [List.map_nil, List.prod_nil, mul_one]
  | cons j l ih =>
    intro a
    rw [List.map_cons, List.foldlM_cons, List.map_cons, List.prod_cons]
    by_cases hj : j = i
    · subst hj
      rw [if_neg (by simp)]
      show (l.map (fun j => (j.val, ((v j).val, (r j).val)))).foldlM _ a.val = _
      rw [ih a, if_pos rfl, one_mul]
    · have hvj : i.val ≠ j.val := fun hv => hj (Fin.ext hv.symm)
      rw [if_pos hvj]
      have hne : v j ≠ v i := hdist j hj
      have hxine : (v i).val ≠ (v j).val := GF.val_ne (Ne.symm hne)
      rw [if_neg hxine]
      have hsub : v i - v j ≠ 0 := sub_ne_zero.mpr (Ne.symm hne)
      have hdiv : gf_div (w.val ^^^ (v j).val) ((v i).val ^^^ (v j).val) =
          .ok (((w - v j) * (v i - v j)⁻¹).val) := by
        rw [← GF.val_sub w (v j), ← GF.val_sub (v i) (v j)]
        exact gf_div_spec (w - v j) (v i - v j) hsub
      rw [hdiv]
      show (l.map (fun j => (j.val, ((v j).val, (r j).val)))).foldlM _
          (gf_mult a.val ((w - v j) * (v i - v j)⁻¹).val) = _
      rw [← GF.val_mul, ih (a * ((w - v j) * (v i - v j)⁻¹)), if_neg hj]
      congr 2
      ring

theorem lagrange_outer_fold (w : GF) (m : Nat) (v r : Fin m → GF)
    (enumL : List (Nat × (Nat × Nat))) (li : Fin m → GF)
    (hLi : ∀ j : Fin m, lagrangeLi w.val (v j).val j.val enumL = .ok ((li j).val)) :
    ∀ (l : List (Fin m)) (acc : GF),
      (l.map (fun j => (j.val, ((v j).val, (r j).val)))).foldlM
          (fun result ip => do
            let d ← lagrangeLi w.val ip.snd.fst ip.fst enumL
            pure (result ^^^ gf_mult ip.snd.snd d))
          acc.val =
        .ok ((acc + (l.map (fun j => r j * li j)).sum).val) := by
  intro l
  induction l with
  | nil =>
    intro acc
    show Except.ok acc.val = _
    rw [List.map_nil, List.sum_nil, add_zero]
  | cons j l ih =>
    intro acc
    rw [List.map_cons, List.foldlM_cons, List.map_cons, List.sum_cons]
    rw [hLi j]
    show (l.map (fun j => (j.val, ((v j).val, (r j).val)))).foldlM _
        (acc.val ^^^ gf_mult (r j).val (li j).val) = _
    rw [← GF.val_mul, ← GF.val_add, ih (acc + r j * li j), add_assoc]

theorem lagrange_interpolation_spec (ptsGF : List (GF × GF)) (w : GF) (f : Polynomial GF)
    (hne : ptsGF ≠ [])
    (hdist : ptsGF.Pairwise (fun p q => p.1 ≠ q.1))
    (hdeg : f.degree < (ptsGF.length : WithBot ℕ))
    (hon : ∀ p ∈ ptsGF, p.2 = f.eval p.1) :
    lagrange_interpolation (ptsGF.map (fun q => (q.1.val, q.2.val))) w.val =
      .ok ((f.eval w).val) := by
  have hget : ∀ (i j : Fin ptsGF.length), i ≠ j → (ptsGF.get i).1 ≠ (ptsGF.get j).1 := by
    rw [List.pairwise_iff_get] at hdist
    intro i j hij
    rcases Nat.lt_trichotomy i.val j.val with h | h | h
    · exact hdist i j h
    · exact absurd (Fin.ext h) hij
    · exact (hdist j i h).symm
  have hinj : Set.InjOn (fun i : Fin ptsGF.length => (ptsGF.get i).1)
      ↑(Finset.univ : Finset (Fin ptsGF.length)) := by
    intro i _ j _ hvij
    by_contra hij
    exact hget i j hij hvij
  have henum : (ptsGF.map (fun q => (q.1.val, q.2.val))).enum =
      (List.finRange ptsGF.length).map
        (fun i => (i.val, ((ptsGF.get i).1.val, (ptsGF.get i).2.val))) := by
    apply List.ext_getElem
    · simp
    · intro i h1 h2
      have hi : i < ptsGF.length := by simpa using h2
      rw [List.getElem_enum, List.getElem_map, List.getElem_map, List.getElem_finRange]
      simp [List.get_eq_getElem]
  have hLi : ∀ j : Fin ptsGF.length,
      lagrangeLi w.val ((ptsGF.get j).1).val j.val
          ((ptsGF.map (fun q => (q.1.val, q.2.val))).enum) =
        .ok ((((List.finRange ptsGF.length).map
          (fun j' => if j' = j then 1
            else (w - (ptsGF.get j').1) * ((ptsGF.get j).1 - (ptsGF.get j').1)⁻¹)).prod).val) := by
    intro j
    rw [henum]
    have hfold := lagrangeLi_fold w ptsGF.length
      (fun i => (ptsGF.get i).1) (fun i => (ptsGF.get i).2) j
      (fun j' hj' => hget j' j hj') (List.finRange ptsGF.length) 1
    rw [GF.val_one] at hfold
    show (List.map (fun i => (i.val, ((ptsGF.get i).1.val, (ptsGF.get i).2.val)))
        (List.finRange ptsGF.length)).foldlM _ 1 = _
    rw [hfold, one_mul]
  unfold lagrange_interpolation
  have hne2 : (ptsGF.map (fun q => (q.1.val, q.2.val))).isEmpty = false := by
    cases ptsGF with
    | nil => exact absurd rfl hne
    | cons p l => rfl
  rw [hne2]
  show (ptsGF.map (fun q => (q.1.val, q.2.val))).enum.foldlM _ 0 = _
  rw [henum]
  have houter := lagrange_outer_fold w ptsGF.length
    (fun i => (ptsGF.get i).1) (fun i => (ptsGF.get i).2)
    ((List.finRange ptsGF.length).map
      (fun i => (i.val, ((ptsGF.get i).1.val, (ptsGF.get i).2.val))))
    (fun j => ((List.finRange ptsGF.length).map
      (fun j' => if j' = j then 1
        else (w - (ptsGF.get j').1) * ((ptsGF.get j).1 - (ptsGF.get j').1)⁻¹)).prod)
    (fun j => by rw [← henum]; exact hLi j)
    (List.finRange ptsGF.length) 0
  rw [GF.val_zero] at houter
  rw [houter]
  congr 1
  rw [zero_add]
  have hsum : (List.map (fun j => (ptsGF.get j).2 *
      ((List.finRange ptsGF.length).map
        (fun j' => if j' = j then 1
          else (w - (ptsGF.get j').1) * ((ptsGF.get j).1 - (ptsGF.get j').1)⁻¹)).prod)
      (List.finRange ptsGF.length)).sum =
      ∑ j : Fin ptsGF.length, (ptsGF.get j).2 *
        ((List.finRange ptsGF.length).map
          (fun j' => if j' = j then 1
            else (w - (ptsGF.get j').1) * ((ptsGF.get j).1 - (ptsGF.get j').1)⁻¹)).prod :=
    (Fin.sum_univ_def _).symm
  rw [hsum]
  have hbasis : ∀ i : Fin ptsGF.length,
      ((List.finRange ptsGF.length).map
        (fun j' => if j' = i then 1
          else (w - (ptsGF.get j').1) * ((ptsGF.get i).1 - (ptsGF.get j').1)⁻¹)).prod =
      (Lagrange.basis Finset.univ (fun k : Fin ptsGF.length => (ptsGF.get k).1) i).eval w := by
    intro i
    rw [← Fin.prod_univ_def]
    rw [← Finset.mul_prod_erase Finset.univ _ (Finset.mem_univ i), if_pos rfl, one_mul]
    rw [Lagrange.basis, Polynomial.eval_prod]
    apply Finset.prod_congr rfl
    intro j hj
    have hji : j ≠ i := Finset.ne_of_mem_erase hj
    rw [if_neg hji, Lagrange.basisDivisor]
    rw [Polynomial.eval_mul, Polynomial.eval_C, Polynomial.eval_sub, Polynomial.eval_X,
      Polynomial.eval_C]
    ring
  have hstep : ∑ j : Fin ptsGF.length, (ptsGF.get j).2 *
      ((List.finRange ptsGF.length).map
        (fun j' => if j' = j then 1
          else (w - (ptsGF.get j').1) * ((ptsGF.get j).1 - (ptsGF.get j').1)⁻¹)).prod =
      (Lagrange.interpolate Finset.univ (fun k : Fin ptsGF.length => (ptsGF.get k).1)
        (fun k => (ptsGF.get k).2)).eval w := by
    rw [Lagrange.interpolate_apply, Polynomial.eval_finset_sum]
    apply Finset.sum_congr rfl
    intro j _
    rw [Polynomial.eval_mul, Polynomial.eval_C, hbasis j]
  rw [hstep]
  have hr_eval : (fun k : Fin ptsGF.length => (ptsGF.get k).2) =
      fun k => f.eval ((ptsGF.get k).1) := by
    funext k
    exact hon _ (ptsGF.get_mem k.val k.isLt)
  rw [hr_eval]
  have hfinal : Lagrange.interpolate Finset.univ
      (fun k : Fin ptsGF.length => (ptsGF.get k).1)
      (fun k => f.eval ((ptsGF.get k).1)) = f := by
    exact (Lagrange.eq_interpolate (f := f)
      (v := fun k : Fin ptsGF.length => (ptsGF.get k).1) hinj
      (by rw [Finset.card_univ, Fintype.card_fin]; exact hdeg)).symm
  rw [hfinal]

/-! ### Failure analysis of the interpolation loops -/

theorem gf_div_ok_of_ne {b : Nat} (a : Nat) (hb : b ≠ 0) :
    ∃ v, gf_div a b = .ok v := by
  unfold gf_div
  by_cases ha : a = 0
  · exact ⟨0, by rw [if_pos ha]⟩
  · exact ⟨_, by rw [if_neg ha, if_neg hb]⟩

theorem lagrangeLi_error_eq (x xi i : Nat) :
    ∀ (l : List (Nat × (Nat × Nat))) (a : Nat) (e : String),
      l.foldlM
        (fun li jp =>
          if i ≠ jp.fst then
            if xi = jp.snd.fst then
              Except.error "Duplicate x-coordinates in interpolation points"
            else do
              let d ← gf_div (x ^^^ jp.snd.fst) (xi ^^^ jp.snd.fst)
              pure (gf_mult li d)
          else pure li)
        a = .error e →
      e = "Duplicate x-coordinates in interpolation points" := by
  intro l
  induction l with
  | nil => intro a e h; simp [List.foldlM_nil, pure, Except.pure] at h
  | cons jp l ih =>
    intro a e h
    rw [List.foldlM_cons] at h
    by_cases hidx : i ≠ jp.fst
    · rw [if_pos hidx] at h
      by_cases hx : xi = jp.snd.fst
      · rw [if_pos hx] at h
        simp [bind, Except.bind] at h
        exact h.symm
      · rw [if_neg hx] at h
        have hden : xi ^^^ jp.snd.fst ≠ 0 := fun h0 => hx (Nat.xor_eq_zero.mp h0)
        obtain ⟨v, hv⟩ := gf_div_ok_of_ne (x ^^^ jp.snd.fst) hden
        rw [hv] at h
        exact ih (gf_mult a v) e h
    · rw [if_neg hidx] at h
      exact ih a e h

theorem foldlM_outer_ok_forall (x : Nat) (full : List (Nat × (Nat × Nat))) :
    ∀ (l : List (Nat × (Nat × Nat))) (a r : Nat),
      l.foldlM
        (fun result ip => do
          let d ← lagrangeLi x ip.snd.fst ip.fst full
          pure (result ^^^ gf_mult ip.snd.snd d))
        a = .ok r →
      ∀ ip ∈ l, ∃ v, lagrangeLi x ip.snd.fst ip.fst full = .ok v := by
  intro l
  induction l with
  | nil => intro a r _ ip hip; simp at hip
  | cons jp l ih =>
    intro a r h ip hip
    rw [List.foldlM_cons] at h
    rcases hstep : lagrangeLi x jp.snd.fst jp.fst full with e | v
    · rw [hstep] at h
      simp [bind, Except.bind] at h
    · rcases List.mem_cons.mp hip with hip1 | hip2
      · subst hip1
        exact ⟨v, hstep⟩
      · rw [hstep] at h
        exact ih _ r h ip hip2

theorem lagrangeLi_ok_forall (x xi i : Nat) :
    ∀ (l : List (Nat × (Nat × Nat))) (a v : Nat),
      l.foldlM
        (fun li jp =>
          if i ≠ jp.fst then
            if xi = jp.snd.fst then
              Except.error "Duplicate x-coordinates in interpolation points"
            else do
              let d ← gf_div (x ^^^ jp.snd.fst) (xi ^^^ jp.snd.fst)
              pure (gf_mult li d)
          else pure li)
        a = .ok v →
      ∀ jp ∈ l, i ≠ jp.fst → xi ≠ jp.snd.fst := by
  intro l
  induction l with
  | nil => intro a v _ jp hjp; simp at hjp
  | cons jp0 l ih =>
    intro a v h jp hjp hine
    rw [List.foldlM_cons] at h
    rcases List.mem_cons.mp hjp with hjp1 | hjp2
    · subst hjp1
      rw [if_pos hine] at h
      by_cases hx : xi = jp.snd.fst
      · rw [if_pos hx] at h
        simp [bind, Except.bind] at h
      · exact hx
    · by_cases hidx : i ≠ jp0.fst
      · rw [if_pos hidx] at h
        by_cases hx : xi = jp0.snd.fst
        · rw [if_pos hx] at h
          simp [bind, Except.bind] at h
        · rw [if_neg hx] at h
          have hden : xi ^^^ jp0.snd.fst ≠ 0 := fun h0 => hx (Nat.xor_eq_zero.mp h0)
          obtain ⟨d, hd⟩ := gf_div_ok_of_ne (x ^^^ jp0.snd.fst) hden
          rw [hd] at h
          exact ih _ v h jp hjp2 hine
      · rw [if_neg hidx] at h
        exact ih a v h jp hjp2 hine

theorem foldlM_outer_error_eq (x : Nat) (full : List (Nat × (Nat × Nat))) :
    ∀ (l : List (Nat × (Nat × Nat))) (a : Nat) (e : String),
      l.foldlM
        (fun result ip => do
          let d ← lagrangeLi x ip.snd.fst ip.fst full
          pure (result ^^^ gf_mult ip.snd.snd d))
        a = .error e →
      (∃ ip ∈ l, ∃ e2, lagrangeLi x ip.snd.fst ip.fst full = .error e2 ∧ e = e2) := by
  intro l
  induction l with
  | nil => intro a e h; simp [List.foldlM_nil, pure, Except.pure] at h
  | cons jp l ih =>
    intro a e h
    rw [List.foldlM_cons] at h
    rcases hstep : lagrangeLi x jp.snd.fst jp.fst full with e2 | v
    · rw [hstep] at h
      have he : e = e2 := by
        simp [bind, Except.bind] at h
        exact h.symm
      exact ⟨jp, by simp, e2, hstep, he⟩
    · rw [hstep] at h
      obtain ⟨ip, hip, e2, h1, h2⟩ := ih _ e h
      exact ⟨ip, by simp [hip], e2, h1, h2⟩

theorem lagrange_interpolation_duplicate (points : List (Nat × Nat)) (x : Nat)
    (i j : Nat) (hij : i < j) (hj : j < points.length)
    (hxeq : (points.getD i (0, 0)).1 = (points.getD j (0, 0)).1) :
    lagrange_interpolation points x =
      .error "Duplicate x-coordinates in interpolation points" := by
  have hi : i < points.length := lt_trans hij hj
  have hne : points.isEmpty = false := by
    cases points with
    | nil => simp at hj
    | cons p l => rfl
  have hgetD_i : points.getD i (0, 0) = points.get ⟨i, hi⟩ := by
    simp [List.getD_eq_getElem?_getD, List.getElem?_eq_getElem hi,
      List.get_eq_getElem]
  have hgetD_j : points.getD j (0, 0) = points.get ⟨j, hj⟩ := by
    simp [List.getD_eq_getElem?_getD, List.getElem?_eq_getElem hj,
      List.get_eq_getElem]
  have hmem_i : (i, points.get ⟨i, hi⟩) ∈ points.enum := by
    have h1 : i < points.enum.length := by simpa [List.enum_length] using hi
    have h2 : points.enum.get ⟨i, h1⟩ = (i, points.get ⟨i, hi⟩) :=
      List.getElem_enum _ _ _
    rw [← h2]
    exact List.getElem_mem h1
  have hmem_j : (j, points.get ⟨j, hj⟩) ∈ points.enum := by
    have h1 : j < points.enum.length := by simpa [List.enum_length] using hj
    have h2 : points.enum.get ⟨j, h1⟩ = (j, points.get ⟨j, hj⟩) :=
      List.getElem_enum _ _ _
    rw [← h2]
    exact List.getElem_mem h1
  unfold lagrange_interpolation
  rw [hne]
  show points.enum.foldlM _ 0 = _
  rcases hres : points.enum.foldlM
      (fun result ip => do
        let d ← lagrangeLi x ip.snd.fst ip.fst points.enum
        pure (result ^^^ gf_mult ip.snd.snd d))
      0 with e | r
  · obtain ⟨ip, _, e2, herr, he⟩ := foldlM_outer_error_eq x points.enum points.enum 0 e hres
    have : e2 = "Duplicate x-coordinates in interpolation points" := by
      unfold lagrangeLi at herr
      exact lagrangeLi_error_eq x ip.snd.fst ip.fst points.enum 1 e2 herr
    rw [hres, he, this]
  · exfalso
    obtain ⟨v, hv⟩ := foldlM_outer_ok_forall x points.enum points.enum 0 r hres
      (i, points.get ⟨i, hi⟩) hmem_i
    unfold lagrangeLi at hv
    have hnex := lagrangeLi_ok_forall x (points.get ⟨i, hi⟩).1 i points.enum 1 v hv
      (j, points.get ⟨j, hj⟩) hmem_j (by omega)
    rw [hgetD_i, hgetD_j] at hxeq
    exact hnex hxeq

/-! ### Small helpers for the reconstruction pipeline -/

theorem list_mapM_ok {α : Type} (f : α → Except String Nat) (g : α → Nat) :
    ∀ l : List α, (∀ y ∈ l, f y = .ok (g y)) → l.mapM f = .ok (l.map g) := by
  intro l
  induction l with
  | nil => intro _; rfl
  | cons a l ih =>
    intro h
    rw [List.mapM_cons, h a (by simp), ih (fun y hy => h y (by simp [hy]))]
    rfl

theorem map_range_getD (l : List Nat) :
    (List.range l.length).map (fun i => l.getD i 0) = l := by
  apply List.ext_getElem
  · simp
  · intro i h1 h2
    simp [List.getD_eq_getElem?_getD, List.getElem?_eq_getElem h2]

theorem lagrange_single {y : Nat} (sid : Nat) (hy : y < 256) :
    lagrange_interpolation [(sid, y)] 0 = .ok y := by
  show Except.ok (0 ^^^ gf_mult y (gf_mult 1 1)) = _
  rw [gf_mult_one (by norm_num), gf_mult_one hy, Nat.zero_xor]

theorem parseOneShare_none (s : List Char) (sid : Nat) (vs : List Nat)
    (hp : parse_base62_share s = .ok (sid, vs)) :
    parseOneShare s none = .ok ((sid, vs), some vs.length) := by
  unfold parseOneShare
  rw [hp]
  rfl

theorem parseOneShare_some (s : List Char) (sid : Nat) (vs : List Nat) (L : Nat)
    (hp : parse_base62_share s = .ok (sid, vs)) (hlen : vs.length = L) :
    parseOneShare s (some L) = .ok ((sid, vs), some L) := by
  unfold parseOneShare
  rw [hp]
  show (match (if vs.length = L then
        (Except.ok ((sid, vs), some L) : Except String ((Nat × List Nat) × Option Nat))
      else if vs.length > L then Except.ok ((sid, vs.take L), some L)
      else Except.error "Inconsistent share lengths") with
    | Except.ok v => Except.ok v
    | Except.error _ => parseHexShare s (some L)) = _
  rw [if_pos hlen]

theorem parseAllShares_of_forall (L : Nat) :
    ∀ (ss : List (List Char)) (ps : List (Nat × List Nat)),
      List.Forall₂ (fun s p =>
        parse_base62_share s = .ok p ∧ p.2.length = L) ss ps →
      ∀ acc, parseAllShares ss (some L) acc = .ok (acc.reverse ++ ps, some L) := by
  intro ss ps hf
  induction hf with
  | nil => intro acc; simp [parseAllShares]
  | cons hsp hrest ih =>
    intro acc
    next s p ss2 ps2 =>
    show (do
        let r ← parseOneShare s (some L)
        parseAllShares ss2 r.snd (r.fst :: acc)) = _
    rw [parseOneShare_some s p.1 p.2 L hsp.1 hsp.2]
    show parseAllShares ss2 (some L) (p :: acc) = _
    rw [ih (p :: acc)]
    simp

theorem reconstruct_single (s : List Char) (sid : Nat) (vs : List Nat)
    (hp : parse_base62_share s = .ok (sid, vs)) (hvs : ∀ b ∈ vs, b < 256) :
    reconstruct_secret [s] = .ok vs := by
  unfold reconstruct_secret
  rw [show ([s] : List (List Char)).isEmpty = false from rfl]
  have hparse : parseAllShares [s] none [] = .ok ([(sid, vs)], some vs.length) := by
    show (do
        let r ← parseOneShare s none
        parseAllShares [] r.snd (r.fst :: [])) = _
    rw [parseOneShare_none s sid vs hp]
    rfl
  rw [hparse]
  show (if ([(sid, vs)] : List (Nat × List Nat)).isEmpty = true then _ else _) = _
  rw [if_neg (by simp)]
  show (List.range vs.length).mapM
      (fun byte_index => lagrange_interpolation [(sid, vs.getD byte_index 0)] 0) = _
  rw [list_mapM_ok _ (fun i => vs.getD i 0) _
    (fun i _ => lagrange_single sid
      (by
        rcases Nat.lt_or_ge i vs.length with hlt | hge
        · have hmem : vs.get ⟨i, hlt⟩ ∈ vs := List.getElem_mem hlt
          have heq : vs.getD i 0 = vs.get ⟨i, hlt⟩ := by
            simp [List.getD_eq_getElem?_getD, List.getElem?_eq_getElem hlt,
              List.get_eq_getElem]
          rw [heq]
          exact hvs _ hmem
        · rw [List.getD_eq_default _ _ (by omega)]
          norm_num)),
    map_range_getD]

theorem reconstruct_two_same_id (s1 s2 : List Char) (sid : Nat) (v1 v2 : List Nat)
    (h1 : parse_base62_share s1 = .ok (sid, v1))
    (h2 : parse_base62_share s2 = .ok (sid, v2))
    (hlen : v2.length = v1.length) (hpos : 0 < v1.length) :
    reconstruct_secret [s1, s2] =
      .error "Duplicate x-coordinates in interpolation points" := by
  unfold reconstruct_secret
  rw [show ([s1, s2] : List (List Char)).isEmpty = false from rfl]
  have hparse : parseAllShares [s1, s2] none [] =
      .ok ([(sid, v1), (sid, v2)], some v1.length) := by
    show (do
        let r ← parseOneShare s1 none
        parseAllShares [s2] r.snd (r.fst :: [])) = _
    rw [parseOneShare_none s1 sid v1 h1]
    show parseAllShares [s2] (some v1.length) [(sid, v1)] = _
    have hf : List.Forall₂ (fun s p =>
        parse_base62_share s = .ok p ∧ (p : Nat × List Nat).2.length = v1.length)
        [s2] [(sid, v2)] := List.Forall₂.cons ⟨h2, hlen⟩ List.Forall₂.nil
    rw [parseAllShares_of_forall v1.length [s2] [(sid, v2)] hf [(sid, v1)]]
    rfl
  rw [hparse]
  show (if ([(sid, v1), (sid, v2)] : List (Nat × List Nat)).isEmpty = true then _ else _) = _
  rw [if_neg (by simp)]
  obtain ⟨m, hm⟩ : ∃ m, v1.length = m + 1 := ⟨v1.length - 1, by omega⟩
  rw [hm]
  show (List.range (m + 1)).mapM
      (fun byte_index =>
        lagrange_interpolation [(sid, v1.getD byte_index 0), (sid, v2.getD byte_index 0)] 0) = _
  have hdup := lagrange_interpolation_duplicate
    [(sid, v1.getD 0 0), (sid, v2.getD 0 0)] 0 0 1 (by norm_num) (by norm_num) rfl
  rw [show List.range (m + 1) = 0 :: (List.range m).map Nat.succ from List.range_succ_eq_map m,
    List.mapM_cons, hdup]
  rfl

/-! ## Claim theorems -/

/-- C2, counterexample: a one-element list holding a single well-formed
share (id 1, one payload byte 65, valid UTF-8) does not make the full
`reconstruct_secret` fail with a NoShares / InsufficientShares error; it
returns a value. -/
theorem C2_counterexample :
    parse_base62_share (encode_base62 [1, 0, 1, 0, 1, 65]) = .ok (1, [65]) ∧
      reconstruct_secret_string [encode_base62 [1, 0, 1, 0, 1, 65]] =
        .ok [65] :=
  ⟨rfl, rfl⟩

/-- C2 (amended): the full `reconstruct_secret` (UTF-8 decode included)
fails with the NoShares error exactly on the empty list.  A one-element
list holding a well-formed share is never rejected with that error: the
code processes it and returns the share's own payload bytes when they
are valid UTF-8, and fails with the BadUtf8 error — not the NoShares
error — otherwise. -/
theorem C2_fewer_than_two_amended :
    reconstruct_secret_string [] = .error "No shares provided" ∧
      ∀ s sid vs, parse_base62_share s = .ok (sid, vs) →
        (∀ b ∈ vs, b < 256) →
        reconstruct_secret_string [s] =
          (if isValidUtf8 vs then .ok vs
            else .error "Reconstructed data is not valid UTF-8") ∧
        reconstruct_secret_string [s] ≠ .error "No shares provided" := by
  refine ⟨rfl, fun s sid vs hp hvs => ?_⟩
  have hb : reconstruct_secret [s] = .ok vs := reconstruct_single s sid vs hp hvs
  have h1 : reconstruct_secret_string [s] =
      (if isValidUtf8 vs then .ok vs
        else .error "Reconstructed data is not valid UTF-8") := by
    unfold reconstruct_secret_string
    rw [hb]
  refine ⟨h1, ?_⟩
  rw [h1]
  by_cases h : isValidUtf8 vs
  · rw [if_pos h]
    intro hcon
    exact Except.noConfusion hcon
  · rw [if_neg h]
    intro hcon
    exact absurd (Except.error.inj hcon) (by decide)

/-- C2, witness for the amended theorem at a concrete share whose payload
"AB" is valid UTF-8. -/
theorem C2_witness :
    (reconstruct_secret_string [encode_base62 [1, 0, 2, 0, 2, 65, 66]] =
      (if isValidUtf8 [65, 66] then (.ok [65, 66] : Except String (List Nat))
        else .error "Reconstructed data is not valid UTF-8") ∧
    reconstruct_secret_string [encode_base62 [1, 0, 2, 0, 2, 65, 66]] ≠
      .error "No shares provided") ∧
    reconstruct_secret_string [encode_base62 [1, 0, 2, 0, 2, 65, 66]] =
      .ok [65, 66] :=
  ⟨C2_fewer_than_two_amended.2 (encode_base62 [1, 0, 2, 0, 2, 65, 66]) 1
      [65, 66] (by rfl) (by decide),
    (C2_fewer_than_two_amended.2 (encode_base62 [1, 0, 2, 0, 2, 65, 66]) 1
      [65, 66] (by rfl) (by decide)).1.trans rfl⟩

/-- C6: the GF(256) laws of the table-based operations: 1 is a right
unit, 0 absorbs, multiplication commutes, and dividing a product by a
non-zero factor recovers the other factor. -/
theorem C6_gf_field_laws (a b : Nat) (ha : a < 256) (hb : b < 256) :
    gf_mult a 1 = a ∧ gf_mult a 0 = 0 ∧ gf_mult a b = gf_mult b a ∧
      (b ≠ 0 → gf_div (gf_mult a b) b = .ok a) := by
  refine ⟨gf_mult_one ha, gf_mult_zero_right a, gf_mult_comm a b, fun hb0 => ?hdiv⟩
  have hBne : (⟨b, hb⟩ : GF) ≠ 0 := fun h => hb0 (congrArg GF.val h)
  have hdiv := gf_div_spec ((⟨a, ha⟩ : GF) * ⟨b, hb⟩) ⟨b, hb⟩ hBne
  rw [show ((⟨a, ha⟩ : GF) * ⟨b, hb⟩).val = gf_mult a b from rfl] at hdiv
  rw [hdiv]
  congr 1
  rw [mul_assoc, mul_inv_cancel₀ hBne, mul_one]

/-- C6, witness at a = 7, b = 9. -/
theorem C6_witness :
    gf_mult 7 1 = 7 ∧ gf_mult 7 0 = 0 ∧ gf_mult 7 9 = gf_mult 9 7 ∧
      (9 ≠ 0 → gf_div (gf_mult 7 9) 9 = .ok 7) :=
  C6_gf_field_laws 7 9 (by norm_num) (by norm_num)

/-- C7, counterexample: two parseable shares with the same ShareId but an
empty payload (OriginalLength 0) reconstruct to the empty secret instead
of failing with DuplicateX. -/
theorem C7_counterexample :
    parse_base62_share (encode_base62 [1, 0, 0, 0, 0]) = .ok (1, []) ∧
      reconstruct_secret [encode_base62 [1, 0, 0, 0, 0], encode_base62 [1, 0, 0, 0, 0]] =
        .ok [] :=
  ⟨rfl, rfl⟩

/-- C7 (amended): Lagrange interpolation fails with DuplicateX whenever
two input points at different positions share an x-coordinate; and
reconstructing from two parseable shares that carry the same ShareId and
the same positive number of payload bytes fails with DuplicateX. -/
theorem C7_duplicate_amended :
    (∀ (points : List (Nat × Nat)) (x i j : Nat), i < j → j < points.length →
      (points.getD i (0, 0)).1 = (points.getD j (0, 0)).1 →
      lagrange_interpolation points x =
        .error "Duplicate x-coordinates in interpolation points") ∧
    ∀ s1 s2 sid v1 v2,
      parse_base62_share s1 = .ok (sid, v1) →
      parse_base62_share s2 = .ok (sid, v2) →
      v2.length = v1.length → 0 < v1.length →
      reconstruct_secret [s1, s2] =
        .error "Duplicate x-coordinates in interpolation points" :=
  ⟨fun points x i j hij hj hx =>
      lagrange_interpolation_duplicate points x i j hij hj hx,
    fun s1 s2 sid v1 v2 h1 h2 hlen hpos =>
      reconstruct_two_same_id s1 s2 sid v1 v2 h1 h2 hlen hpos⟩

/-- C7, witness for the amended theorem: two concrete shares with id 1
and one payload byte each. -/
theorem C7_witness :
    reconstruct_secret [encode_base62 [1, 0, 1, 0, 1, 65], encode_base62 [1, 0, 1, 0, 1, 66]] =
      .error "Duplicate x-coordinates in interpolation points" :=
  C7_duplicate_amended.2 (encode_base62 [1, 0, 1, 0, 1, 65])
    (encode_base62 [1, 0, 1, 0, 1, 66]) 1 [65] [66] (by rfl) (by rfl)
    (by decide) (by decide)

/-- C9: the split-path parameter validator accepts exactly the integer
pairs with 2 ≤ N ≤ 255 and 2 ≤ K ≤ N; in particular
`generate_shares` with N = 300 fails with the InvalidParams error
`Total shares cannot exceed 255` (for the one-byte secret `"x"` and any
random stream). -/
theorem C9_validate_params :
    (∀ N K : Int, (validate_share_parameters N K).fst = true ↔
      (2 ≤ N ∧ N ≤ 255 ∧ 2 ≤ K ∧ K ≤ N)) ∧
    ∀ rng, generate_shares rng [120] 300 2 = .error "Total shares cannot exceed 255" := by
  constructor
  · intro N K
    unfold validate_share_parameters
    split_ifs with h1 h2 h3 h4 <;> simp <;> omega
  · intro rng
    rfl

/-- C10: the table-based multiplication agrees with the bit-level
shift-and-reduce multiplication on all byte operands. -/
theorem C10_table_mult_eq_basic (a b : Nat) (ha : a < 256) (hb : b < 256) :
    gf_mult a b = gf_mult_basic a b :=
  gf_mult_eq_basic ha hb

/-- C10, witness at a = 7, b = 9. -/
theorem C10_witness : gf_mult 7 9 = gf_mult_basic 7 9 :=
  C10_table_mult_eq_basic 7 9 (by norm_num) (by norm_num)

/-! ### Base62 encode/decode round trip -/

theorem encode_eq_digits {v : List Nat} (hne : v ≠ []) (hnum : fromBytesBE v ≠ 0) :
    encode_base62 v = b62Digits (fromBytesBE v) (fromBytesBE v) := by
  unfold encode_base62
  rw [if_neg hne]
  show (if fromBytesBE v = 0 then _ else _) = _
  rw [if_neg hnum]

theorem decode_encode_ok (v : List Nat) (hlt : ∀ b ∈ v, b < 256)
    (hhd : v.getD 0 0 ≠ 0) : decode_base62 (encode_base62 v) = .ok v := by
  have hne : v ≠ [] := by
    intro h
    subst h
    exact hhd rfl
  have hpos : 0 < fromBytesBE v := fromBytesBE_pos hne hhd
  rw [encode_eq_digits hne (by omega)]
  unfold decode_base62
  have hdne : b62Digits (fromBytesBE v) (fromBytesBE v) ≠ [] := by
    rw [b62Digits_step (by omega)]
    simp
  rw [if_neg hdne]
  show (b62Digits (fromBytesBE v) (fromBytesBE v)).foldlM _ 0 >>= _ = _
  rw [decode_fold_b62Digits (fromBytesBE v) 0]
  show (if (0 * 62 ^ (b62Digits (fromBytesBE v) (fromBytesBE v)).length + fromBytesBE v)
      = 0 then _ else _ : Except String (List Nat)) = _
  rw [if_neg (by omega)]
  show Except.ok (toBytesBE (0 * 62 ^ (b62Digits (fromBytesBE v) (fromBytesBE v)).length
    + fromBytesBE v)) = _
  rw [Nat.zero_mul, Nat.zero_add, toBytesBE_fromBytesBE v hlt hhd]

theorem encode_allzero {v : List Nat} (hne : v ≠ []) (hz : ∀ b ∈ v, b = 0) :
    encode_base62 v = [BASE62_ALPHABET.getD 0 '0'] := by
  unfold encode_base62
  rw [if_neg hne]
  show (if fromBytesBE v = 0 then _ else _) = _
  rw [if_pos (fromBytesBE_zero_of_all_zero hz)]

theorem decode_encode_allzero (v : List Nat) (hne : v ≠ []) (hz : ∀ b ∈ v, b = 0) :
    decode_base62 (encode_base62 v) = .ok [0] := by
  rw [encode_allzero hne hz]
  rfl

theorem encode_mem_alphabet (v : List Nat) : ∀ c ∈ encode_base62 v, c ∈ BASE62_ALPHABET := by
  intro c hc
  by_cases hne : v = []
  · subst hne
    simp [encode_base62] at hc
  · by_cases hz : fromBytesBE v = 0
    · have he : encode_base62 v = [BASE62_ALPHABET.getD 0 '0'] := by
        unfold encode_base62
        rw [if_neg hne]
        show (if fromBytesBE v = 0 then _ else _) = _
        rw [if_pos hz]
      rw [he] at hc
      have : c = BASE62_ALPHABET.getD 0 '0' := by simpa using hc
      subst this
      exact alphabet_getD_mem 0 (by norm_num)
    · rw [encode_eq_digits hne hz] at hc
      exact b62Digits_mem_alphabet _ c hc

theorem encode_length_of_ge {v : List Nat} (hne : v ≠ [])
    (h : 62 ^ 249 ≤ fromBytesBE v) : 250 ≤ (encode_base62 v).length := by
  have hp : 0 < (62 : Nat) ^ 249 := Nat.pos_pow_of_pos _ (by norm_num)
  have hnum : fromBytesBE v ≠ 0 := by omega
  rw [encode_eq_digits hne hnum]
  have hlt := b62Digits_lt (fromBytesBE v)
  by_contra hcon
  push_neg at hcon
  have hle : (62 : Nat) ^ (b62Digits (fromBytesBE v) (fromBytesBE v)).length ≤ 62 ^ 249 :=
    Nat.pow_le_pow_right (by norm_num) (by omega)
  omega

/-- C4, counterexample: the byte vector `[0x00, 0x01]` (not all zero, so
the documented convention does not excuse it) does not round-trip: the
leading zero byte is lost. -/
theorem C4_counterexample :
    decode_base62 (encode_base62 [0, 1]) ≠ .ok ([0, 1] : List Nat) ∧
      decode_base62 (encode_base62 [0, 1]) = .ok [1] := by
  constructor
  · intro h
    have : ([1] : List Nat) = [0, 1] := by
      have h2 : decode_base62 (encode_base62 [0, 1]) = .ok [1] := rfl
      rw [h2] at h
      exact Except.ok.inj h
    simp at this
  · rfl

/-- C4 (amended): the Base62 round trip `decode (encode v) = v` holds for
the empty vector and for every byte vector whose first byte is non-zero;
an all-zero vector decodes to the single byte `0x00` (the documented
convention).  A vector with a leading zero byte and a non-zero byte
elsewhere loses its leading zeros. -/
theorem C4_base62_round_trip_amended (v : List Nat) (hlt : ∀ b ∈ v, b < 256) :
    (v.getD 0 0 ≠ 0 → decode_base62 (encode_base62 v) = .ok v) ∧
    (v ≠ [] → (∀ b ∈ v, b = 0) → decode_base62 (encode_base62 v) = .ok [0]) ∧
    (v = [] → decode_base62 (encode_base62 v) = .ok []) :=
  ⟨fun hhd => decode_encode_ok v hlt hhd,
    fun hne hz => decode_encode_allzero v hne hz,
    fun h => by subst h; rfl⟩

/-- C4, witness at the concrete vector `[7, 0]`. -/
theorem C4_witness : decode_base62 (encode_base62 [7, 0]) = .ok [7, 0] :=
  (C4_base62_round_trip_amended [7, 0] (by decide)).1 (by decide)

/-- Parsing a current-format share: the bytes after the 5-byte header
must be exactly PaddedLength long; the first OriginalLength of them are
the share values, and any other count fails with LengthMismatch. -/
theorem parse_length_cases (s : List Char) (d : List Nat)
    (hdec : decode_base62 s = .ok d) (hlen : 5 ≤ d.length)
    (hid1 : 1 ≤ d.getD 0 0) (hid2 : d.getD 0 0 ≤ 255) :
    (d.length - 5 = d.getD 3 0 * 256 + d.getD 4 0 →
      parse_base62_share s =
        .ok (d.getD 0 0, (d.drop 5).take (d.getD 1 0 * 256 + d.getD 2 0))) ∧
    (d.length - 5 ≠ d.getD 3 0 * 256 + d.getD 4 0 →
      parse_base62_share s =
        .error "Failed to parse share: Share data length mismatch") := by
  unfold parse_base62_share parse_base62_share_inner
  rw [hdec]
  simp only [bind, Except.bind]
  rw [if_neg (by omega : ¬ d.length < 5),
    if_neg (by omega : ¬ (d.getD 0 0 < 1 ∨ 255 < d.getD 0 0)),
    List.length_drop]
  constructor
  · intro hP
    rw [if_neg (by omega : ¬ (d.length - 5 ≠ d.getD 3 0 * 256 + d.getD 4 0))]
    rfl
  · intro hP
    rw [if_pos (by omega : d.length - 5 ≠ d.getD 3 0 * 256 + d.getD 4 0)]
    rfl

/-- C3 (amended): for a current-format share the parser accepts exactly
when the bytes after the 5-byte header are exactly PaddedLength long,
taking the first OriginalLength of them as the share values; any other
count fails with the LengthMismatch error. -/
theorem C3_parse_exact_amended (s : List Char) (d : List Nat)
    (hdec : decode_base62 s = .ok d) (hlen : 5 ≤ d.length)
    (hid1 : 1 ≤ d.getD 0 0) (hid2 : d.getD 0 0 ≤ 255) :
    (d.length - 5 = d.getD 3 0 * 256 + d.getD 4 0 →
      parse_base62_share s =
        .ok (d.getD 0 0, (d.drop 5).take (d.getD 1 0 * 256 + d.getD 2 0))) ∧
    (d.length - 5 ≠ d.getD 3 0 * 256 + d.getD 4 0 →
      parse_base62_share s =
        .error "Failed to parse share: Share data length mismatch") :=
  parse_length_cases s d hdec hlen hid1 hid2

/-- C3, counterexample: a current-format share whose decoded bytes carry
two bytes after the header while declaring P = 1 — "at least P bytes",
which the claim says the parser accepts — is rejected with the
LengthMismatch error instead. -/
theorem C3_counterexample :
    decode_base62 (encode_base62 [1, 0, 1, 0, 1, 65, 66]) =
        .ok ([1, 0, 1, 0, 1, 65, 66] : List Nat) ∧
      parse_base62_share (encode_base62 [1, 0, 1, 0, 1, 65, 66]) =
        .error "Failed to parse share: Share data length mismatch" :=
  ⟨rfl, rfl⟩

/-- C3, witness for the amended theorem at a concrete well-formed share. -/
theorem C3_witness :
    parse_base62_share (encode_base62 [1, 0, 1, 0, 1, 65]) = .ok (1, [65]) :=
  (C3_parse_exact_amended (encode_base62 [1, 0, 1, 0, 1, 65]) [1, 0, 1, 0, 1, 65]
    rfl (by decide) (by decide) (by decide)).1 (by decide)

/-! ### Framer round trip -/

theorem base_encode_ge (sid L : Nat) (data : List Nat) (hsid1 : 1 ≤ sid)
    (hlen : 200 ≤ data.length) :
    250 ≤ (encode_base62 (([sid] ++ toBytes2BE L ++ toBytes2BE data.length) ++ data)).length := by
  apply encode_length_of_ge
  · simp
  · have hcons : (([sid] ++ toBytes2BE L ++ toBytes2BE data.length) ++ data) =
        sid :: (toBytes2BE L ++ toBytes2BE data.length ++ data) := by
      simp [toBytes2BE]
    rw [hcons]
    have h1 := fromBytesBE_ge sid (toBytes2BE L ++ toBytes2BE data.length ++ data)
    have hlen4 : (toBytes2BE L ++ toBytes2BE data.length ++ data).length =
        4 + data.length := by
      simp [toBytes2BE]
      omega
    rw [hlen4] at h1
    have h2 : (256 : Nat) ^ 204 ≤ 256 ^ (4 + data.length) :=
      Nat.pow_le_pow_right (by norm_num) (by omega)
    have h3 : (62 : Nat) ^ 249 < 256 ^ 204 := by decide
    have h4 : 1 * 256 ^ (4 + data.length) ≤ sid * 256 ^ (4 + data.length) :=
      Nat.mul_le_mul_right _ hsid1
    omega

/-- Whenever the Base62 encoding of header plus payload already reaches
250 characters, the frame is exactly that encoding and the padding loop
never runs (consumes no random draws). -/
theorem format_share_noPadding (rng : Nat → Nat) (sid : Nat) (data : List Nat)
    (L : Nat)
    (hge : 250 ≤ (encode_base62
      (([sid] ++ toBytes2BE L ++ toBytes2BE data.length) ++ data)).length) :
    format_share_with_original_length rng sid data L =
      (encode_base62 (([sid] ++ toBytes2BE L ++ toBytes2BE data.length) ++ data), 0) := by
  unfold format_share_with_original_length
  show (if (encode_base62 (([sid] ++ toBytes2BE L ++ toBytes2BE data.length) ++ data)).length
      < 250 then _ else _) = _
  rw [if_neg (by omega)]

theorem format_share_spec (rng : Nat → Nat) (sid : Nat) (data : List Nat)
    (L : Nat) (hsid1 : 1 ≤ sid) (hlen : 200 ≤ data.length) :
    format_share_with_original_length rng sid data L =
      (encode_base62 (([sid] ++ toBytes2BE L ++ toBytes2BE data.length) ++ data), 0) :=
  format_share_noPadding rng sid data L (base_encode_ge sid L data hsid1 hlen)

/-- Parsing the Base62 encoding of an explicit well-formed 5-byte header
followed by exactly the declared number of value bytes returns the id and
the first `OriginalLength` value bytes. -/
theorem parse_header_cons (sid a b c e : Nat) (data : List Nat)
    (hsid1 : 1 ≤ sid) (hsid2 : sid ≤ 255) (hdata : ∀ x ∈ data, x < 256)
    (ha : a < 256) (hb : b < 256) (hc : c < 256) (he : e < 256)
    (hP : data.length = c * 256 + e) :
    parse_base62_share (encode_base62 (sid :: a :: b :: c :: e :: data)) =
      .ok (sid, data.take (a * 256 + b)) := by
  have hlt : ∀ x ∈ (sid :: a :: b :: c :: e :: data), x < 256 := by
    intro x hx
    simp only [List.mem_cons] at hx
    rcases hx with rfl | rfl | rfl | rfl | rfl | hx
    · omega
    · exact ha
    · exact hb
    · exact hc
    · exact he
    · exact hdata x hx
  have hdec := decode_encode_ok _ hlt (show sid ≠ 0 by omega)
  have h := (parse_length_cases _ _ hdec
    (show 5 ≤ data.length + 5 by omega) hsid1 hsid2).1
    (show data.length + 5 - 5 = c * 256 + e by omega)
  exact h

theorem parse_encoded_base (sid : Nat) (data : List Nat) (L : Nat)
    (hsid1 : 1 ≤ sid) (hsid2 : sid ≤ 255) (hdata : ∀ x ∈ data, x < 256)
    (hlen2 : data.length < 65536) (hL : L < 65536) :
    parse_base62_share (encode_base62
      (([sid] ++ toBytes2BE L ++ toBytes2BE data.length) ++ data)) =
      .ok (sid, data.take L) := by
  have hbase : (([sid] ++ toBytes2BE L ++ toBytes2BE data.length) ++ data) =
      sid :: (L / 256 % 256) :: (L % 256) ::
        (data.length / 256 % 256) :: (data.length % 256) :: data := rfl
  rw [hbase]
  have h := parse_header_cons sid (L / 256 % 256) (L % 256)
    (data.length / 256 % 256) (data.length % 256) data hsid1 hsid2 hdata
    (Nat.mod_lt _ (by norm_num)) (Nat.mod_lt _ (by norm_num))
    (Nat.mod_lt _ (by norm_num)) (Nat.mod_lt _ (by norm_num)) (by omega)
  rw [h]
  have hL2 : L / 256 % 256 * 256 + L % 256 = L := by omega
  rw [hL2]

theorem parse_format (rng : Nat → Nat) (sid : Nat) (data : List Nat) (L : Nat)
    (hsid1 : 1 ≤ sid) (hsid2 : sid ≤ 255) (hdata : ∀ x ∈ data, x < 256)
    (hlen : 200 ≤ data.length) (hlen2 : data.length < 65536) (hL : L < 65536) :
    parse_base62_share (format_share_with_original_length rng sid data L).1 =
      .ok (sid, data.take L) := by
  rw [format_share_spec rng sid data L hsid1 hlen]
  show parse_base62_share (encode_base62
    (([sid] ++ toBytes2BE L ++ toBytes2BE data.length) ++ data)) = _
  exact parse_encoded_base sid data L hsid1 hsid2 hdata hlen2 hL

/-- C8 (amended): the frame/parse round trip is exact exactly on the
no-padding side.  Whenever the Base62 encoding of the 5-byte header plus
payload reaches 250 characters — which `base_encode_ge` shows holds for
every payload of at least 200 bytes, hence for every share the split
path emits — the frame consumes no random draws and parsing recovers the
ShareId and the first OriginalLength value bytes exactly (the full
ShareValues vector when OriginalLength equals the payload length).  When
the encoding falls short of 250 characters the transport padding is
appended INSIDE the Base62 text, so the decoded byte string no longer
matches the declared PaddedLength and the round trip can fail outright
(see the counterexample). -/
theorem C8_frame_parse_amended (rng : Nat → Nat) (sid : Nat) (data : List Nat)
    (L : Nat) (hsid1 : 1 ≤ sid) (hsid2 : sid ≤ 255)
    (hdata : ∀ x ∈ data, x < 256)
    (hlen2 : data.length < 65536) (hL : L < 65536)
    (hge : 250 ≤ (encode_base62
      (([sid] ++ toBytes2BE L ++ toBytes2BE data.length) ++ data)).length) :
    parse_base62_share (format_share_with_original_length rng sid data L).1 =
      .ok (sid, data.take L) ∧
    (format_share_with_original_length rng sid data L).2 = 0 := by
  constructor
  · rw [format_share_noPadding rng sid data L hge]
    show parse_base62_share (encode_base62
      (([sid] ++ toBytes2BE L ++ toBytes2BE data.length) ++ data)) = _
    exact parse_encoded_base sid data L hsid1 hsid2 hdata hlen2 hL
  · rw [format_share_noPadding rng sid data L hge]

/-- C8, counterexample: framing the one-byte payload `[65]` with ShareId 1
and OriginalLength 1 (transport padding stream constantly 1) produces a
share the parser rejects: the padding garbles the decoded byte string, so
the round trip does not recover `(1, [65])`. -/
theorem C8_counterexample :
    parse_base62_share
        (format_share_with_original_length (fun _ => 1) 1 [65] 1).1 =
      .error "Failed to parse share: Share data length mismatch" := rfl

/-- C8, witness for the amended theorem at a 200-byte payload. -/
theorem C8_witness :
    parse_base62_share (format_share_with_original_length (fun _ => 1) 1
        (List.replicate 200 65) 3).1 =
      .ok (1, (List.replicate 200 65).take 3) ∧
    (format_share_with_original_length (fun _ => 1) 1
        (List.replicate 200 65) 3).2 = 0 :=
  C8_frame_parse_amended (fun _ => 1) 1 (List.replicate 200 65) 3
    (by decide) (by decide) (by decide) (by simp) (by decide)
    (base_encode_ge 1 3 (List.replicate 200 65) (by decide) (by simp))

/-! ### The share matrix built by `generate_shares` -/

theorem foldl_append_singleton {α β : Type} (f : β → α) :
    ∀ (l : List β) (s0 : List α),
      l.foldl (fun acc j => acc ++ [f j]) s0 = s0 ++ l.map f := by
  intro l
  induction l with
  | nil => intro s0; simp
  | cons a l ih => intro s0; simp [ih]

theorem getD_map_range {α : Type} (f : Nat → α) (d : α) {n k : Nat} (hk : k < n) :
    ((List.range n).map f).getD k d = f k := by
  rw [List.getD_eq_getElem?_getD, List.getElem?_map, List.getElem?_range hk]
  rfl

theorem set_map_range {α : Type} (f : Nat → α) (v : α) (n k : Nat) :
    ((List.range n).map f).set k v =
      (List.range n).map (fun j => if j = k then v else f j) := by
  apply List.ext_getElem
  · simp
  · intro i h1 h2
    rw [List.getElem_set]
    simp only [List.getElem_map, List.getElem_range]
    by_cases h : k = i
    · subst h
      simp
    · rw [if_neg h, if_neg (fun hh => h hh.symm)]

theorem set_fold_map (g : Nat → Nat) (F : Nat → List Nat) (n : Nat) :
    ∀ k, k ≤ n →
      (List.range k).foldl
        (fun shares j => shares.set j (shares.getD j [] ++ [g j]))
        ((List.range n).map F) =
      (List.range n).map (fun j => if j < k then F j ++ [g j] else F j) := by
  intro k
  induction k with
  | zero =>
    intro _
    simp
  | succ k ih =>
    intro hk
    rw [List.range_succ, List.foldl_append, ih (by omega)]
    simp only [List.foldl_cons, List.foldl_nil]
    rw [getD_map_range _ _ (show k < n by omega), set_map_range]
    apply List.map_congr_left
    intro j hj
    by_cases hjk : j = k
    · rw [if_pos hjk, if_neg (show ¬ k < k from lt_irrefl k),
        if_pos (show j < k + 1 by omega), hjk]
    · rw [if_neg hjk]
      by_cases hlt : j < k
      · rw [if_pos hlt, if_pos (by omega)]
      · rw [if_neg hlt, if_neg (by omega)]

theorem set_fold_full (g : Nat → Nat) (F : Nat → List Nat) (n : Nat) :
    (List.range n).foldl
      (fun shares j => shares.set j (shares.getD j [] ++ [g j]))
      ((List.range n).map F) =
    (List.range n).map (fun j => F j ++ [g j]) := by
  rw [set_fold_map g F n n le_rfl]
  apply List.map_congr_left
  intro j hj
  rw [if_pos (List.mem_range.mp hj)]

theorem buildShares_one (coeffs : Nat → List Nat) (n : Nat) :
    buildShares coeffs n 1 =
      (List.range n).foldl
        (fun shares j =>
          shares ++ [[j + 1, evaluate_polynomial (coeffs 0) (j + 1)]]) [] := by
  unfold buildShares
  rw [show List.range 1 = [0] from rfl]
  simp only [List.foldl_cons, List.foldl_nil]
  exact List.foldl_ext _ _ _ (fun s j _ => by simp)

theorem buildShares_step (coeffs : Nat → List Nat) (n m : Nat) (hm : m ≠ 0) :
    buildShares coeffs n (m + 1) =
      (List.range n).foldl
        (fun shares j =>
          shares.set j
            (shares.getD j [] ++ [evaluate_polynomial (coeffs m) (j + 1)]))
        (buildShares coeffs n m) := by
  unfold buildShares
  rw [List.range_succ, List.foldl_append]
  simp only [List.foldl_cons, List.foldl_nil]
  exact List.foldl_ext _ _ _ (fun s j _ => by simp [hm])

theorem buildShares_eq (coeffs : Nat → List Nat) (n : Nat) :
    ∀ len, 1 ≤ len →
      buildShares coeffs n len =
        (List.range n).map (fun j =>
          (j + 1) :: (List.range len).map
            (fun i => evaluate_polynomial (coeffs i) (j + 1))) := by
  intro len
  induction len with
  | zero => intro h; exact absurd h (by omega)
  | succ m ih =>
    intro _
    rcases Nat.eq_zero_or_pos m with rfl | hm
    · rw [buildShares_one, foldl_append_singleton, List.nil_append]
      apply List.map_congr_left
      intro j hj
      rfl
    · rw [buildShares_step coeffs n m (by omega), ih hm, set_fold_full]
      apply List.map_congr_left
      intro j hj
      rw [List.range_succ, List.map_append, List.cons_append]
      rfl

/-! ### Bounds on evaluated shares and the `GF` view of byte lists -/

theorem eval_fold_lt (x : Nat) :
    ∀ (l : List Nat) (acc : Nat), acc < 256 → (∀ b ∈ l, b < 256) →
      l.foldl (fun result coeff => gf_mult result x ^^^ coeff) acc < 256 := by
  intro l
  induction l with
  | nil => intro acc ha _; exact ha
  | cons c l ih =>
    intro acc ha hb
    rw [List.foldl_cons]
    apply ih
    · have h1 : gf_mult acc x < 256 := gf_mult_lt acc x
      have h2 : c < 256 := hb c (by simp)
      have h28 : (2 : Nat) ^ 8 = 256 := by norm_num
      have h3 := Nat.xor_lt_two_pow (n := 8)
        (x := gf_mult acc x) (y := c) (by omega) (by omega)
      omega
    · exact fun b hbm => hb b (by simp [hbm])

theorem evaluate_polynomial_lt (l : List Nat) (x : Nat)
    (hl : ∀ b ∈ l, b < 256) : evaluate_polynomial l x < 256 := by
  unfold evaluate_polynomial
  exact eval_fold_lt x l.reverse 0 (by norm_num)
    (fun b hb => hl b (List.mem_reverse.mp hb))

theorem getD_lt_of_forall {l : List Nat} (hl : ∀ b ∈ l, b < 256) (i : Nat) :
    l.getD i 0 < 256 := by
  by_cases h : i < l.length
  · rw [List.getD_eq_getElem?_getD, List.getElem?_eq_getElem h]
    exact hl _ (List.getElem_mem h)
  · rw [List.getD_eq_getElem?_getD, List.getElem?_eq_none (by omega)]
    norm_num

theorem getD_take {α : Type} (l : List α) (d : α) {m i : Nat} (him : i < m) :
    (l.take m).getD i d = l.getD i d := by
  rw [List.getD_eq_getElem?_getD, List.getElem?_take, if_pos him,
    ← List.getD_eq_getElem?_getD]

/-- The canonical `GF` element of a byte. -/
def toGF (b : Nat) : GF := ⟨b % 256, Nat.mod_lt b (by norm_num)⟩

theorem toGF_val {b : Nat} (hb : b < 256) : (toGF b).val = b := by
  show b % 256 = b
  exact Nat.mod_eq_of_lt hb

theorem map_val_toGF : ∀ (l : List Nat), (∀ b ∈ l, b < 256) →
    (l.map toGF).map GF.val = l := by
  intro l
  induction l with
  | nil => intro _; rfl
  | cons b l ih =>
    intro h
    simp only [List.map_cons]
    rw [toGF_val (h b (by simp)), ih (fun x hx => h x (by simp [hx]))]

/-- Interpolating the evaluations of an explicit coefficient list at
pairwise-distinct points, at least as many as there are coefficients,
recovers the constant coefficient (the evaluation at 0). -/
theorem lagrange_eval_points (c : List Nat) (xs : List Nat)
    (hc : ∀ b ∈ c, b < 256) (hxs : ∀ x ∈ xs, x < 256)
    (hnd : xs.Nodup) (hne : xs ≠ []) (hdeg : c.length ≤ xs.length) :
    lagrange_interpolation (xs.map (fun x => (x, evaluate_polynomial c x))) 0 =
      .ok (c.headD 0) := by
  have hmain := lagrange_interpolation_spec
    (xs.map (fun x => (toGF x, (toPoly (c.map toGF)).eval (toGF x)))) 0
    (toPoly (c.map toGF))
    (by simpa using hne)
    (by
      rw [List.pairwise_map]
      have himp : ∀ {a b : Nat}, a ∈ xs → b ∈ xs → a ≠ b →
          ((toGF a, (toPoly (c.map toGF)).eval (toGF a)).1 ≠
            (toGF b, (toPoly (c.map toGF)).eval (toGF b)).1) := by
        intro a b ha hb hab hcon
        apply hab
        have hcon2 : toGF a = toGF b := hcon
        have hv : (toGF a).val = (toGF b).val := congrArg GF.val hcon2
        rw [toGF_val (hxs a ha), toGF_val (hxs b hb)] at hv
        exact hv
      exact List.Pairwise.imp_of_mem himp hnd)
    (by
      have h1 := toPoly_degree_lt (c.map toGF)
      rw [List.length_map] at h1
      rw [List.length_map]
      exact lt_of_lt_of_le h1 (by exact_mod_cast hdeg))
    (by
      intro p hp
      obtain ⟨x, hx, rfl⟩ := List.mem_map.mp hp
      rfl)
  have hmap : (xs.map (fun x => (toGF x, (toPoly (c.map toGF)).eval (toGF x)))).map
      (fun q => (q.1.val, q.2.val)) = xs.map (fun x => (x, evaluate_polynomial c x)) := by
    rw [List.map_map]
    apply List.map_congr_left
    intro x hx
    show ((toGF x).val, ((toPoly (c.map toGF)).eval (toGF x)).val) = _
    have he := evaluate_polynomial_eq (c.map toGF) (toGF x)
    rw [map_val_toGF c hc, toGF_val (hxs x hx)] at he
    rw [toGF_val (hxs x hx), ← he]
  rw [hmap, GF.val_zero] at hmain
  rw [hmain, toPoly_eval_zero]
  cases c with
  | nil => rfl
  | cons b l =>
    simp only [List.map_cons, List.headD_cons]
    rw [toGF_val (hc b (by simp))]

/-- A frame of a payload of at least 200 bytes is at least 250 characters
long and stays inside the Base62 alphabet. -/
theorem format_share_wellformed (rng : Nat → Nat) (sid : Nat) (data : List Nat)
    (L : Nat) (hsid1 : 1 ≤ sid) (hlen : 200 ≤ data.length) :
    250 ≤ (format_share_with_original_length rng sid data L).1.length ∧
      ∀ c ∈ (format_share_with_original_length rng sid data L).1,
        c ∈ BASE62_ALPHABET := by
  rw [format_share_spec rng sid data L hsid1 hlen]
  exact ⟨base_encode_ge sid L data hsid1 hlen,
    fun c hc => encode_mem_alphabet
      (([sid] ++ toBytes2BE L ++ toBytes2BE data.length) ++ data) c hc⟩

/-! ### The split path: `generate_shares` on valid inputs -/

theorem padded_length_eq (rng : Nat → Nat) (s : List Nat) (padCount : Nat)
    (padded : List Nat)
    (hpc : padCount = if s.length < 200 then 200 - s.length else 0)
    (hpad : padded = if s.length < 200 then
      s ++ (List.range padCount).map rng else s) :
    padded.length = if s.length < 200 then 200 else s.length := by
  rw [hpad]
  by_cases h : s.length < 200
  · rw [if_pos h, if_pos h]
    simp only [List.length_append, List.length_map, List.length_range]
    rw [hpc, if_pos h]
    omega
  · rw [if_neg h, if_neg h]

theorem padded_bytes_lt (rng : Nat → Nat) (s : List Nat) (padCount : Nat)
    (padded : List Nat) (hr : ∀ u, 1 ≤ rng u ∧ rng u ≤ 255)
    (hsb : ∀ b ∈ s, b < 256)
    (hpad : padded = if s.length < 200 then
      s ++ (List.range padCount).map rng else s) :
    ∀ b ∈ padded, b < 256 := by
  subst hpad
  by_cases h : s.length < 200
  · rw [if_pos h]
    intro b hb
    rcases List.mem_append.mp hb with h1 | h2
    · exact hsb b h1
    · obtain ⟨u, _, rfl⟩ := List.mem_map.mp h2
      have := hr u
      omega
  · rw [if_neg h]
    exact hsb

theorem generate_shares_spec (rng : Nat → Nat) (s : List Nat) (n t : Nat)
    (padCount : Nat) (padded : List Nat) (coeffs : Nat → List Nat)
    (hn255 : n ≤ 255) (ht2 : 2 ≤ t) (htn : t ≤ n)
    (hs1 : 1 ≤ s.length) (hs2 : s.length ≤ 10000) (hs0 : 0 ∉ s)
    (hpc : padCount = if s.length < 200 then 200 - s.length else 0)
    (hpad : padded = if s.length < 200 then
      s ++ (List.range padCount).map rng else s)
    (hco : coeffs = fun i => padded.getD i 0 ::
      (List.range (t - 1)).map (fun u => rng (padCount + i * (t - 1) + u))) :
    generate_shares rng s n t =
      .ok (((List.range n).map (fun j =>
        (j + 1) :: (List.range padded.length).map
          (fun i => evaluate_polynomial (coeffs i) (j + 1)))).map
        (fun share =>
          (format_share_with_original_length
            (fun u => rng (padCount + padded.length * (t - 1) + u))
            (share.headD 0) (share.drop 1) s.length).fst)) := by
  have hplen1 : 1 ≤ padded.length := by
    rw [padded_length_eq rng s padCount padded hpc hpad]
    split <;> omega
  have hv1 : validate_share_parameters n t = (true, "") := by
    unfold validate_share_parameters
    rw [if_neg (by omega), if_neg (by omega), if_neg (by omega),
      if_neg (by omega)]
  have hv2 : validate_secret_length s 10000 = (true, "") := by
    unfold validate_secret_length
    rw [if_neg (by omega), if_neg (by omega), if_neg hs0]
  simp only [generate_shares]
  rw [hv1, hv2]
  rw [if_neg (by simp), if_neg (by simp)]
  rw [← hpc, ← hpad, ← hco]
  rw [buildShares_eq coeffs n padded.length hplen1]

theorem parseAllShares_none_forall (L : Nat) (ss : List (List Char))
    (ps : List (Nat × List Nat))
    (hf : List.Forall₂ (fun sh p =>
      parse_base62_share sh = .ok p ∧ p.2.length = L) ss ps)
    (hne : ss ≠ []) :
    parseAllShares ss none [] = .ok (ps, some L) := by
  cases hf with
  | nil => exact absurd rfl hne
  | cons h0 hrest =>
    next s0 p0 ss2 ps2 =>
    show (do
        let r ← parseOneShare s0 none
        parseAllShares ss2 r.snd (r.fst :: [])) = _
    rw [parseOneShare_none s0 p0.1 p0.2 h0.1]
    show parseAllShares ss2 (some p0.2.length) [p0] = _
    rw [h0.2, parseAllShares_of_forall L ss2 ps2 hrest [p0]]
    simp

/-- C5: on an accepted secret and valid parameters, `generate_shares`
emits exactly TotalShares share strings; every one is at least 250
characters long and made only of Base62 alphabet characters, and the
ShareId parsed back from the j-th share is j+1 — the ids of the emitted
set are exactly 1..TotalShares, hence pairwise distinct and within
[1, 255]. -/
theorem C5_generated_share_wellformed (rng : Nat → Nat) (s : List Nat)
    (n t : Nat)
    (hr : ∀ u, 1 ≤ rng u ∧ rng u ≤ 255)
    (hsb : ∀ b ∈ s, b < 256) (hs0 : 0 ∉ s)
    (hs1 : 1 ≤ s.length) (hs2 : s.length ≤ 10000)
    (ht2 : 2 ≤ t) (htn : t ≤ n) (hn255 : n ≤ 255) :
    ∃ shares, generate_shares rng s n t = .ok shares ∧
      shares.length = n ∧
      (∀ sh ∈ shares, 250 ≤ sh.length ∧ ∀ c ∈ sh, c ∈ BASE62_ALPHABET) ∧
      ∀ j, j < n → ∃ vs, parse_base62_share (shares.getD j []) =
        .ok (j + 1, vs) := by
  obtain ⟨padCount, hpc⟩ : ∃ pc : Nat,
      pc = if s.length < 200 then 200 - s.length else 0 := ⟨_, rfl⟩
  obtain ⟨padded, hpad⟩ : ∃ pl : List Nat,
      pl = if s.length < 200 then
        s ++ (List.range padCount).map rng else s := ⟨_, rfl⟩
  obtain ⟨coeffs, hco⟩ : ∃ cf : Nat → List Nat,
      cf = fun i => padded.getD i 0 ::
        (List.range (t - 1)).map
          (fun u => rng (padCount + i * (t - 1) + u)) := ⟨_, rfl⟩
  have hspec := generate_shares_spec rng s n t padCount padded coeffs
    hn255 ht2 htn hs1 hs2 hs0 hpc hpad hco
  have hpl := padded_length_eq rng s padCount padded hpc hpad
  have hpb := padded_bytes_lt rng s padCount padded hr hsb hpad
  have hpl200 : 200 ≤ padded.length := by rw [hpl]; split <;> omega
  have hpl10000 : padded.length ≤ 10000 := by rw [hpl]; split <;> omega
  have hcoefb : ∀ i, ∀ b ∈ coeffs i, b < 256 := by
    intro i b hb
    rw [hco] at hb
    rcases List.mem_cons.mp hb with rfl | hm
    · exact getD_lt_of_forall hpb i
    · obtain ⟨u, _, rfl⟩ := List.mem_map.mp hm
      have := hr (padCount + i * (t - 1) + u)
      omega
  have hdata : ∀ j : Nat, ∀ b ∈ (List.range padded.length).map
      (fun i => evaluate_polynomial (coeffs i) (j + 1)), b < 256 := by
    intro j b hb
    obtain ⟨i, _, rfl⟩ := List.mem_map.mp hb
    exact evaluate_polynomial_lt _ _ (hcoefb i)
  have hdlen : ∀ j : Nat, ((List.range padded.length).map
      (fun i => evaluate_polynomial (coeffs i) (j + 1))).length =
        padded.length := by
    intro j
    simp
  refine ⟨_, hspec, ?_, ?_, ?_⟩
  · simp
  · intro sh hsh
    obtain ⟨row, hrow, rfl⟩ := List.mem_map.mp hsh
    obtain ⟨j, hj, rfl⟩ := List.mem_map.mp hrow
    exact format_share_wellformed
      (fun u => rng (padCount + padded.length * (t - 1) + u)) (j + 1)
      ((List.range padded.length).map
        (fun i => evaluate_polynomial (coeffs i) (j + 1)))
      s.length (by omega)
      (by simp only [List.length_map, List.length_range]; omega)
  · intro j hj
    refine ⟨((List.range padded.length).map
      (fun i => evaluate_polynomial (coeffs i) (j + 1))).take s.length, ?_⟩
    rw [List.map_map, getD_map_range _ _ hj]
    exact parse_format _ (j + 1)
      ((List.range padded.length).map
        (fun i => evaluate_polynomial (coeffs i) (j + 1)))
      s.length (by omega) (by omega) (hdata j)
      (by simp only [List.length_map, List.length_range]; omega)
      (by simp only [List.length_map, List.length_range]; omega) (by omega)

/-- Reconstruction from Threshold distinct shares of a generated set: if
the j-th share of `S` parses to id j+1 and the first OriginalLength
evaluations of the per-byte coefficient lists at x = j+1, then
reconstructing from the shares selected by any Threshold-sized
duplicate-free index list recovers the constant coefficients. -/
theorem reconstruct_generated (S : List (List Char)) (idxs : List Nat)
    (paddedLen L : Nat) (coeffs : Nat → List Nat) (n t : Nat)
    (hS : ∀ j, j < n →
      parse_base62_share (S.getD j []) = .ok (j + 1,
        ((List.range paddedLen).map
          (fun i2 => evaluate_polynomial (coeffs i2) (j + 1))).take L))
    (hcb : ∀ i, ∀ b ∈ coeffs i, b < 256)
    (hclen : ∀ i, (coeffs i).length = t)
    (hLp : L ≤ paddedLen)
    (hnd : idxs.Nodup) (hsel : ∀ j ∈ idxs, j < n) (hilen : idxs.length = t)
    (hn255 : n ≤ 255) (ht1 : 1 ≤ t) :
    reconstruct_secret (idxs.map (fun j => S.getD j [])) =
      .ok ((List.range L).map (fun i => (coeffs i).headD 0)) := by
  have hidxne : idxs ≠ [] := by
    intro h
    rw [h] at hilen
    simp at hilen
    omega
  have hvlen : ∀ j : Nat, (((List.range paddedLen).map
      (fun i2 => evaluate_polynomial (coeffs i2) (j + 1))).take L).length = L := by
    intro j
    simp only [List.length_take, List.length_map, List.length_range]
    omega
  have hf : List.Forall₂ (fun sh p =>
      parse_base62_share sh = .ok p ∧ p.2.length = L)
      (idxs.map (fun j => S.getD j []))
      (idxs.map (fun j => ((j + 1 : Nat),
        ((List.range paddedLen).map
          (fun i2 => evaluate_polynomial (coeffs i2) (j + 1))).take L))) := by
    rw [List.forall₂_map_left_iff, List.forall₂_map_right_iff,
      List.forall₂_same]
    intro j hj
    exact ⟨hS j (hsel j hj), hvlen j⟩
  have hparse := parseAllShares_none_forall L
    (idxs.map (fun j => S.getD j []))
    (idxs.map (fun j => ((j + 1 : Nat),
      ((List.range paddedLen).map
        (fun i2 => evaluate_polynomial (coeffs i2) (j + 1))).take L)))
    hf (by simp [hidxne])
  have hall : ∀ i ∈ List.range L,
      lagrange_interpolation ((idxs.map (fun j => ((j + 1 : Nat),
        ((List.range paddedLen).map
          (fun i2 => evaluate_polynomial (coeffs i2) (j + 1))).take L))).map
        (fun q => (q.fst, q.snd.getD i 0))) 0 = .ok ((coeffs i).headD 0) := by
    intro i hi
    have hiL : i < L := List.mem_range.mp hi
    have harg : (idxs.map (fun j => ((j + 1 : Nat),
        ((List.range paddedLen).map
          (fun i2 => evaluate_polynomial (coeffs i2) (j + 1))).take L))).map
        (fun q => (q.fst, q.snd.getD i 0)) =
        (idxs.map (fun j => j + 1)).map
          (fun x => (x, evaluate_polynomial (coeffs i) x)) := by
      rw [List.map_map, List.map_map]
      apply List.map_congr_left
      intro j hj
      show ((j + 1 : Nat), (((List.range paddedLen).map
          (fun i2 => evaluate_polynomial (coeffs i2) (j + 1))).take L).getD i 0) = _
      rw [getD_take _ _ hiL, getD_map_range _ _ (show i < paddedLen by omega)]
      rfl
    rw [harg]
    exact lagrange_eval_points (coeffs i) (idxs.map (fun j => j + 1))
      (hcb i)
      (by
        intro x hx
        obtain ⟨j, hj, rfl⟩ := List.mem_map.mp hx
        have := hsel j hj
        omega)
      (hnd.map (fun a b h => by omega))
      (by simp [hidxne])
      (by
        rw [List.length_map]
        have h1 := hclen i
        omega)
  unfold reconstruct_secret
  rw [if_neg (by simp [List.isEmpty_iff, hidxne])]
  rw [hparse]
  show (if (idxs.map (fun j => ((j + 1 : Nat),
      ((List.range paddedLen).map
        (fun i2 => evaluate_polynomial (coeffs i2) (j + 1))).take L))).isEmpty = true
    then _ else _) = _
  rw [if_neg (by simp [List.isEmpty_iff, hidxne])]
  show (List.range L).mapM (fun byte_index =>
      lagrange_interpolation ((idxs.map (fun j => ((j + 1 : Nat),
        ((List.range paddedLen).map
          (fun i2 => evaluate_polynomial (coeffs i2) (j + 1))).take L))).map
        (fun q => (q.fst, q.snd.getD byte_index 0))) 0) =
    Except.ok ((List.range L).map (fun i => (coeffs i).headD 0))
  rw [list_mapM_ok _ _ _ hall]

/-- C1: round-trip identity.  For every accepted secret (byte view of a
UTF-8 string, 1 ≤ length ≤ 10000, no NUL byte), all valid parameters
2 ≤ Threshold ≤ TotalShares ≤ 255, any random stream whose draws lie in
[1, 255], and any duplicate-free Threshold-sized selection of share
positions, reconstructing from the selected shares returns exactly the
secret. -/
theorem C1_round_trip (rng : Nat → Nat) (s : List Nat) (n t : Nat)
    (idxs : List Nat)
    (hr : ∀ u, 1 ≤ rng u ∧ rng u ≤ 255)
    (hsb : ∀ b ∈ s, b < 256) (hs0 : 0 ∉ s)
    (hs1 : 1 ≤ s.length) (hs2 : s.length ≤ 10000)
    (ht2 : 2 ≤ t) (htn : t ≤ n) (hn255 : n ≤ 255)
    (hnd : idxs.Nodup) (hsel : ∀ j ∈ idxs, j < n) (hilen : idxs.length = t) :
    ∃ shares, generate_shares rng s n t = .ok shares ∧
      reconstruct_secret (idxs.map (fun j => shares.getD j [])) = .ok s := by
  obtain ⟨padCount, hpc⟩ : ∃ pc : Nat,
      pc = if s.length < 200 then 200 - s.length else 0 := ⟨_, rfl⟩
  obtain ⟨padded, hpad⟩ : ∃ pl : List Nat,
      pl = if s.length < 200 then
        s ++ (List.range padCount).map rng else s := ⟨_, rfl⟩
  obtain ⟨coeffs, hco⟩ : ∃ cf : Nat → List Nat,
      cf = fun i => padded.getD i 0 ::
        (List.range (t - 1)).map
          (fun u => rng (padCount + i * (t - 1) + u)) := ⟨_, rfl⟩
  have hspec := generate_shares_spec rng s n t padCount padded coeffs
    hn255 ht2 htn hs1 hs2 hs0 hpc hpad hco
  have hpl := padded_length_eq rng s padCount padded hpc hpad
  have hpb := padded_bytes_lt rng s padCount padded hr hsb hpad
  have hpl200 : 200 ≤ padded.length := by rw [hpl]; split <;> omega
  have hpl10000 : padded.length ≤ 10000 := by rw [hpl]; split <;> omega
  have hslen : s.length ≤ padded.length := by rw [hpl]; split <;> omega
  have hcoefb : ∀ i, ∀ b ∈ coeffs i, b < 256 := by
    intro i b hb
    rw [hco] at hb
    rcases List.mem_cons.mp hb with rfl | hm
    · exact getD_lt_of_forall hpb i
    · obtain ⟨u, _, rfl⟩ := List.mem_map.mp hm
      have := hr (padCount + i * (t - 1) + u)
      omega
  have hclen : ∀ i, (coeffs i).length = t := by
    intro i
    rw [hco]
    simp only [List.length_cons, List.length_map, List.length_range]
    omega
  have hdata : ∀ j : Nat, ∀ b ∈ (List.range padded.length).map
      (fun i => evaluate_polynomial (coeffs i) (j + 1)), b < 256 := by
    intro j b hb
    obtain ⟨i, _, rfl⟩ := List.mem_map.mp hb
    exact evaluate_polynomial_lt _ _ (hcoefb i)
  obtain ⟨S, hSdef⟩ : ∃ S2 : List (List Char),
      S2 = ((List.range n).map (fun j =>
        (j + 1) :: (List.range padded.length).map
          (fun i => evaluate_polynomial (coeffs i) (j + 1)))).map
        (fun share =>
          (format_share_with_original_length
            (fun u => rng (padCount + padded.length * (t - 1) + u))
            (share.headD 0) (share.drop 1) s.length).fst) := ⟨_, rfl⟩
  refine ⟨S, by rw [hSdef]; exact hspec, ?_⟩
  have hS : ∀ j, j < n → parse_base62_share (S.getD j []) = .ok (j + 1,
      ((List.range padded.length).map
        (fun i2 => evaluate_polynomial (coeffs i2) (j + 1))).take s.length) := by
    intro j hj
    rw [hSdef, List.map_map, getD_map_range _ _ hj]
    exact parse_format _ (j + 1)
      ((List.range padded.length).map
        (fun i => evaluate_polynomial (coeffs i) (j + 1)))
      s.length (by omega) (by omega) (hdata j)
      (by simp only [List.length_map, List.length_range]; omega)
      (by simp only [List.length_map, List.length_range]; omega) (by omega)
  rw [reconstruct_generated S idxs padded.length s.length coeffs n t hS
    hcoefb hclen hslen hnd hsel hilen hn255 (by omega)]
  have hfinal : (List.range s.length).map (fun i => (coeffs i).headD 0) = s := by
    have h1 : (List.range s.length).map (fun i => (coeffs i).headD 0) =
        (List.range s.length).map (fun i => s.getD i 0) := by
      apply List.map_congr_left
      intro i hi
      have hiS : i < s.length := List.mem_range.mp hi
      rw [hco]
      show (padded.getD i 0 : Nat) = s.getD i 0
      rw [hpad]
      by_cases h : s.length < 200
      · rw [if_pos h]
        exact List.getD_append _ _ _ _ hiS
      · rw [if_neg h]
    rw [h1, map_range_getD]
  rw [hfinal]

/-- C5, witness at a concrete secret, parameters and rng stream. -/
theorem C5_witness :
    ∃ shares, generate_shares (fun u => u % 255 + 1) [72, 105] 3 2 =
        .ok shares ∧
      shares.length = 3 ∧
      (∀ sh ∈ shares, 250 ≤ sh.length ∧ ∀ c ∈ sh, c ∈ BASE62_ALPHABET) ∧
      ∀ j, j < 3 → ∃ vs, parse_base62_share (shares.getD j []) =
        .ok (j + 1, vs) :=
  C5_generated_share_wellformed (fun u => u % 255 + 1) [72, 105] 3 2
    (fun u => by
      show 1 ≤ u % 255 + 1 ∧ u % 255 + 1 ≤ 255
      omega)
    (by decide) (by decide) (by decide)
    (by decide) (by decide) (by decide) (by decide)

/-- C1, witness: the secret "Hi" split 2-of-3, reconstructed from the
shares at positions 2 and 0. -/
theorem C1_witness :
    ∃ shares, generate_shares (fun u => u % 255 + 1) [72, 105] 3 2 =
        .ok shares ∧
      reconstruct_secret ([2, 0].map (fun j => shares.getD j [])) =
        .ok [72, 105] :=
  C1_round_trip (fun u => u % 255 + 1) [72, 105] 3 2 [2, 0]
    (fun u => by
      show 1 ≤ u % 255 + 1 ∧ u % 255 + 1 ≤ 255
      omega)
    (by decide) (by decide) (by decide)
    (by decide) (by decide) (by decide) (by decide) (by decide) (by decide)
    (by decide)
